import Mathlib

/-!
Verification of the `@divmain/sat` SAT-solver library.

The definitions below are a shallow embedding of `src/index.ts`:
JavaScript objects (`Record<Variable, Value>`) become insertion-ordered
association lists, JS `Set` becomes an insertion-ordered duplicate-free
list, numbers become `Nat`, and JS `undefined` is represented by
`Option` (a missing record key reads as `none`; the property key
computed from the JS value `undefined` is the string `"undefined"`).
-/

namespace SAT

/-- `Value` from the source: the tri-state assignment value
(`UNSET = -1`, `FALSE = 0`, `TRUE = 1`). -/
inductive Value : Type where
  | UNSET : Value
  | FALSE : Value
  | TRUE : Value
deriving DecidableEq, Repr

/-- JS truthiness of the numeric enum `Value`: `-1` and `1` are truthy,
`0` is falsy. -/
def Value.truthy : Value → Bool
  | .UNSET => true
  | .FALSE => false
  | .TRUE => true

/-- `Variable` from the source: a string. -/
abbrev Variable := String

/-- `BooleanExpr` from the source: the tagged union of `AndExpr`,
`OrExpr` and `NotExpr`, whose operand arrays hold variables or nested
expressions. -/
inductive BooleanExpr : Type where
  | and : List (Variable ⊕ BooleanExpr) → BooleanExpr
  | or : List (Variable ⊕ BooleanExpr) → BooleanExpr
  | not : (Variable ⊕ BooleanExpr) → BooleanExpr

/-- `VariableAssignments` from the source: a JS record, i.e. an
insertion-ordered association list with unique keys. -/
abbrev VariableAssignments := List (Variable × Value)

/-- Reading `record[key]` in JS: the bound value, or `none` for the JS
`undefined` that a missing key produces. -/
def lookup (a : VariableAssignments) (v : Variable) : Option Value :=
  (a.find? (fun p => p.1 == v)).map (fun p => p.2)

/-- `record[key] = value` in JS: overwrite in place when the key is
present (keeping its position), append otherwise. -/
def setEntry (a : VariableAssignments) (k : Variable) (v : Value) :
    VariableAssignments :=
  if a.any (fun p => p.1 == k) then
    a.map (fun p => if p.1 == k then (p.1, v) else p)
  else a ++ [(k, v)]

/-- `Object.fromEntries`: insert the entries left to right into an
initially empty record. -/
def fromEntries (l : List (Variable × Value)) : VariableAssignments :=
  l.foldl (fun m p => setEntry m p.1 p.2) []

/-- Object spread `{...a, ...b}`: assign every entry of `b` onto a copy
of `a`. -/
def objAssign (a b : VariableAssignments) : VariableAssignments :=
  b.foldl (fun m p => setEntry m p.1 p.2) a

/-- The `and(...exprs)` constructor. -/
def and (exprs : List (Variable ⊕ BooleanExpr)) : BooleanExpr := .and exprs

/-- The `or(...exprs)` constructor. -/
def or (exprs : List (Variable ⊕ BooleanExpr)) : BooleanExpr := .or exprs

/-- The `not(expr)` constructor. -/
def not (expr : Variable ⊕ BooleanExpr) : BooleanExpr := .not expr

/-- The `implies(a, b)` constructor: `or(not(a), b)`. -/
def implies (a b : Variable ⊕ BooleanExpr) : BooleanExpr :=
  or [Sum.inr (not a), b]

/-- The `xor(a, b)` constructor:
`or(and(a, not(b)), and(not(a), b))`. -/
def xor (a b : Variable ⊕ BooleanExpr) : BooleanExpr :=
  or [Sum.inr (and [a, Sum.inr (not b)]), Sum.inr (and [Sum.inr (not a), b])]

/-- `sequence(len)` from the source: `[0, 1, ..., len-1]`. -/
def sequence (len : Nat) : List Nat := List.range len

/-- JS `Set.add`: append the element unless already present. -/
def addVar (s : List Variable) (v : Variable) : List Variable :=
  if v ∈ s then s else s ++ [v]

mutual
/-- `getVariables` from the source, with the accumulating `Set`
represented as an insertion-ordered duplicate-free list. -/
def getVariablesAux : BooleanExpr → List Variable → List Variable
  | .and ops, acc => getVariablesList ops acc
  | .or ops, acc => getVariablesList ops acc
  | .not (Sum.inl v), acc => addVar acc v
  | .not (Sum.inr e), acc => getVariablesAux e acc

/-- The `for (const subExpr of ...)` loops inside `getVariables`. -/
def getVariablesList :
    List (Variable ⊕ BooleanExpr) → List Variable → List Variable
  | [], acc => acc
  | Sum.inl v :: rest, acc => getVariablesList rest (addVar acc v)
  | Sum.inr e :: rest, acc => getVariablesList rest (getVariablesAux e acc)
end

/-- `getVariables(expr)` with the default empty `Set`. -/
def getVariables (e : BooleanExpr) : List Variable := getVariablesAux e []

mutual
/-- `expressionValue` from the source restricted to `BooleanExpr`
arguments; on such arguments it always returns `TRUE` or `FALSE`. -/
def exprValue : BooleanExpr → VariableAssignments → Value
  | .and ops, a => if andAll ops a then .TRUE else .FALSE
  | .or ops, a => if orAny ops a then .TRUE else .FALSE
  | .not x, a => if operandValue x a == some .FALSE then .TRUE else .FALSE

/-- `expressionValue` on a `Variable | BooleanExpr` argument; a variable
leaf reads the record, which can produce the JS `undefined` (`none`). -/
def operandValue : (Variable ⊕ BooleanExpr) → VariableAssignments → Option Value
  | Sum.inl v, a => lookup a v
  | Sum.inr e, a => some (exprValue e a)

/-- `expr.and.every((subExpr) => expressionValue(subExpr, a) === Value.TRUE)`. -/
def andAll : List (Variable ⊕ BooleanExpr) → VariableAssignments → Bool
  | [], _ => true
  | x :: rest, a => (operandValue x a == some .TRUE) && andAll rest a

/-- `expr.or.some((subExpr) => expressionValue(subExpr, a) === Value.TRUE)`. -/
def orAny : List (Variable ⊕ BooleanExpr) → VariableAssignments → Bool
  | [], _ => false
  | x :: rest, a => (operandValue x a == some .TRUE) || orAny rest a
end

/-- Little-endian binary digits by repeated division, with explicit fuel
so that the definition is structural (hence kernel-evaluable). -/
def natBitsLEAux : Nat → Nat → List Bool
  | 0, _ => []
  | fuel + 1, n => if n = 0 then [] else (n % 2 == 1) :: natBitsLEAux fuel (n / 2)

/-- The little-endian binary digits of a natural number, empty for `0`
(the reversal of what JS `toString(2)` prints, except at `0`). -/
def natBitsLE (n : Nat) : List Bool := natBitsLEAux n n

/-- `(num >>> 0).toString(2)` as a most-significant-bit-first bit list:
JS prints `"0"` for zero, so zero yields `[false]`. -/
def toBinStr (n : Nat) : List Bool :=
  if n = 0 then [false] else (natBitsLE n).reverse

/-- `binaryStr.padStart(numVars, '0')`: prepend zeros up to the target
width, leaving the string unchanged when it is already long enough. -/
def padBits (w : Nat) (l : List Bool) : List Bool :=
  List.replicate (w - l.length) false ++ l

/-- `zeroOrOne !== '0' ? Value.TRUE : Value.FALSE`. -/
def bitVal (b : Bool) : Value := if b then .TRUE else .FALSE

/-- `variables[idx]` in JS: the element, or the property key `"undefined"`
that the JS value `undefined` coerces to inside `Object.fromEntries`. -/
def entryKey (vars : List Variable) (idx : Nat) : Variable :=
  match vars.get? idx with
  | some v => v
  | none => "undefined"

/-- `boolAssignments.map((val, idx) => [variables[idx], val])`. -/
def idxEntries (vars : List Variable) : Nat → List Value → List (Variable × Value)
  | _, [] => []
  | idx, v :: rest => (entryKey vars idx, v) :: idxEntries vars (idx + 1) rest

/-- `allPossibleAssignments` from the source. -/
def allPossibleAssignments (vars : List Variable) : List VariableAssignments :=
  (sequence (2 ^ vars.length)).map (fun num =>
    fromEntries (idxEntries vars 0
      ((padBits vars.length (toBinStr num)).map bitVal)))

/-- `bruteForceAllSolutions` from the source. -/
def bruteForceAllSolutions (e : BooleanExpr) : List VariableAssignments :=
  (allPossibleAssignments (getVariables e)).filter
    (fun assignment => exprValue e assignment == .TRUE)

/-- `NextVariable` from the source. -/
abbrev NextVariable := Option (Variable × Bool)

/-- `SelectNextVariable` from the source. -/
abbrev SelectNextVariable :=
  List Variable → VariableAssignments → NextVariable

/-- `defaultSelect` from the source; note the JS truthiness test
`unassignedVar ? [unassignedVar, false] : null`, under which the empty
string is falsy. -/
def defaultSelect : SelectNextVariable := fun vars assignments =>
  match vars.find? (fun v => lookup assignments v == some .UNSET) with
  | some unassignedVar =>
      if unassignedVar == "" then none else some (unassignedVar, false)
  | none => none

/-- `getInitialAssignments` from the source. -/
def getInitialAssignments (e : BooleanExpr) : VariableAssignments :=
  fromEntries ((getVariables e).map (fun v => (v, Value.UNSET)))

/-- The number of variables of `vars` that are `UNSET` in `a`: the
termination measure of the backtracking recursion. -/
def unsetCount (vars : List Variable) (a : VariableAssignments) : Nat :=
  (vars.filter (fun v => lookup a v == some .UNSET)).length

/-- `dpllSolution` from the source, instrumented with fuel so that the
model is total: `none` means the fuel ran out (which never happens for a
legal strategy given fuel exceeding `unsetCount`), `some r` means the
JS function returns `r`. -/
def dpllFuel (sel : SelectNextVariable) (e : BooleanExpr) :
    Nat → VariableAssignments → Option (Option VariableAssignments)
  | 0, _ => none
  | fuel + 1, assignments =>
    match sel (getVariables e) assignments with
    | none =>
        some (if (exprValue e assignments).truthy then some assignments else none)
    | some (unassignedVar, checkTrueFirst) =>
      match dpllFuel sel e fuel
          (setEntry assignments unassignedVar
            (if checkTrueFirst then .TRUE else .FALSE)) with
      | none => none
      | some (some s) => some (some s)
      | some none =>
          dpllFuel sel e fuel
            (setEntry assignments unassignedVar
              (if checkTrueFirst then .FALSE else .TRUE))

/-- `dpllSolution` with the fuel instantiated to a sufficient budget;
for a legal strategy this is exactly the JS recursion. -/
def dpllSolution (e : BooleanExpr) (assignments : VariableAssignments)
    (selectNextVar : SelectNextVariable) : Option VariableAssignments :=
  match dpllFuel selectNextVar e
      (unsetCount (getVariables e) assignments + 1) assignments with
  | some r => r
  | none => none

/-- `getSolution` from the source; the caller passes `[]` for an absent
`initialAssignments` and `defaultSelect` for an absent strategy. -/
def getSolution (e : BooleanExpr) (initialAssignments : VariableAssignments)
    (selectNextVar : SelectNextVariable) : Option VariableAssignments :=
  dpllSolution e (objAssign (getInitialAssignments e) initialAssignments)
    selectNextVar

/-- The spec's legality contract on a selection strategy, relative to the
variable list the search passes to it: `null` only when no listed
variable is `UNSET`, otherwise some currently-`UNSET` listed variable. -/
def LegalFor (sel : SelectNextVariable) (vars : List Variable) : Prop :=
  ∀ a, (sel vars a = none → ∀ v ∈ vars, lookup a v ≠ some .UNSET) ∧
    (∀ v b, sel vars a = some (v, b) → v ∈ vars ∧ lookup a v = some .UNSET)

mutual
/-- Modelled from the spec: the pre-order, left-to-right list of every
variable occurrence of an expression (with multiplicity). -/
def occurList : BooleanExpr → List Variable
  | .and ops => occurListOps ops
  | .or ops => occurListOps ops
  | .not (Sum.inl v) => [v]
  | .not (Sum.inr e) => occurList e

/-- Occurrence lists of the operands of an `And`/`Or` node, in order. -/
def occurListOps : List (Variable ⊕ BooleanExpr) → List Variable
  | [] => []
  | Sum.inl v :: rest => v :: occurListOps rest
  | Sum.inr e :: rest => occurList e ++ occurListOps rest
end

/-- The variable occurrences of a single operand position. -/
def occurOperand : (Variable ⊕ BooleanExpr) → List Variable
  | Sum.inl v => [v]
  | Sum.inr e => occurList e

/-- Pad a little-endian digit list with zeros at the high end up to a
target width. -/
def padLE (w : Nat) (l : List Bool) : List Bool :=
  l ++ List.replicate (w - l.length) false

/-- Modelled from the spec: "its binary representation zero-padded to
`n` bits (most-significant bit first)" — the width-`w` big-endian bit
vector of `k`. -/
def specBits (w k : Nat) : List Bool :=
  (padLE w (natBitsLE k)).reverse

/-- The canonical total assignment binding `vars[i]` to `bits[i]`,
keys in extraction order. -/
def zipAssign (vars : List Variable) (bits : List Bool) : VariableAssignments :=
  vars.zip (bits.map bitVal)

/-- All bit lists of a given length, in lexicographic order with `false`
before `true` and the most significant position first — the order in
which both the brute-force enumerator and the default backtracking
search visit total assignments. -/
def allBitLists : Nat → List (List Bool)
  | 0 => [[]]
  | m + 1 =>
      (allBitLists m).map (fun q => false :: q) ++
      (allBitLists m).map (fun q => true :: q)

/-- The keys of a record, in insertion order. -/
def keysOf (a : VariableAssignments) : List Variable := a.map Prod.fst

/-!  ### Binary-digit lemmas  -/

theorem natBitsLEAux_zero (fuel : Nat) : natBitsLEAux fuel 0 = [] := by
  cases fuel <;> rfl

theorem natBitsLEAux_stable (n : Nat) : ∀ fuel, n ≤ fuel →
    natBitsLEAux fuel n = natBitsLE n := by
  induction n using Nat.strong_induction_on with
  | _ n ih =>
    intro fuel h
    by_cases h0 : n = 0
    · subst h0; rw [natBitsLEAux_zero]; rfl
    · obtain ⟨f, rfl⟩ : ∃ f, fuel = f + 1 := ⟨fuel - 1, by omega⟩
      have hdiv : n / 2 < n := Nat.div_lt_self (Nat.pos_of_ne_zero h0) (by norm_num)
      have hL : natBitsLEAux (f + 1) n = (n % 2 == 1) :: natBitsLEAux f (n / 2) := by
        simp only [natBitsLEAux, if_neg h0]
      have hR : natBitsLE n = (n % 2 == 1) :: natBitsLEAux (n - 1) (n / 2) := by
        show natBitsLEAux n n = _
        obtain ⟨m, rfl⟩ : ∃ m, n = m + 1 := ⟨n - 1, by omega⟩
        simp only [natBitsLEAux, if_neg h0, Nat.add_sub_cancel]
      rw [hL, hR, ih (n / 2) hdiv f (by omega), ih (n / 2) hdiv (n - 1) (by omega)]

theorem natBitsLE_zero : natBitsLE 0 = [] := rfl

theorem natBitsLE_eq (n : Nat) (h : n ≠ 0) :
    natBitsLE n = (n % 2 == 1) :: natBitsLE (n / 2) := by
  have hpos : 0 < n := Nat.pos_of_ne_zero h
  show natBitsLEAux n n = _
  obtain ⟨m, rfl⟩ := Nat.exists_eq_succ_of_ne_zero h
  have hdiv : (m + 1) / 2 ≤ m := by omega
  simp only [natBitsLEAux, if_neg h]
  rw [natBitsLEAux_stable _ _ hdiv]

theorem natBitsLE_length_le (m k : Nat) (h : k < 2 ^ m) :
    (natBitsLE k).length ≤ m := by
  induction m generalizing k with
  | zero =>
      have : k = 0 := by simpa using h
      subst this; simp [natBitsLE_zero]
  | succ m ih =>
      by_cases h0 : k = 0
      · subst h0; simp [natBitsLE_zero]
      · rw [natBitsLE_eq k h0]
        have hk2 : k / 2 < 2 ^ m := by
          apply Nat.div_lt_of_lt_mul
          calc k < 2 ^ (m + 1) := h
            _ = 2 * 2 ^ m := by ring
        simpa using ih _ hk2

theorem natBitsLE_pow_add (m k : Nat) (h : k < 2 ^ m) :
    natBitsLE (2 ^ m + k) = padLE m (natBitsLE k) ++ [true] := by
  induction m generalizing k with
  | zero =>
      have : k = 0 := by simpa using h
      subst this
      simp [padLE, natBitsLE_zero]
      rfl
  | succ m ih =>
      have hne : 2 ^ (m + 1) + k ≠ 0 := by positivity
      have hmod : (2 ^ (m + 1) + k) % 2 = k % 2 := by
        have : 2 ^ (m + 1) = 2 * 2 ^ m := by ring
        omega
      have hdivh : (2 ^ (m + 1) + k) / 2 = 2 ^ m + k / 2 := by
        have h2 : 2 ^ (m + 1) + k = k + 2 ^ m * 2 := by ring
        rw [h2, Nat.add_mul_div_right _ _ (by norm_num : 0 < 2), Nat.add_comm]
      have hklt : k / 2 < 2 ^ m := by
        apply Nat.div_lt_of_lt_mul
        calc k < 2 ^ (m + 1) := h
          _ = 2 * 2 ^ m := by ring
      rw [natBitsLE_eq _ hne, hmod, hdivh, ih _ hklt]
      by_cases h0 : k = 0
      · subst h0
        simp [natBitsLE_zero, padLE, List.replicate_succ]
      · rw [natBitsLE_eq k h0]
        have hlen : (natBitsLE (k / 2)).length ≤ m := natBitsLE_length_le m _ hklt
        simp only [padLE, List.length_cons]
        have : m + 1 - ((natBitsLE (k / 2)).length + 1) = m - (natBitsLE (k / 2)).length := by
          omega
        rw [this]
        simp

/-!  ### Record (association list) lemmas  -/

theorem lookup_nil (v : Variable) : lookup [] v = none := rfl

theorem lookup_cons (p : Variable × Value) (a : VariableAssignments) (v : Variable) :
    lookup (p :: a) v = if p.1 = v then some p.2 else lookup a v := by
  by_cases h : p.1 = v <;> simp [lookup, List.find?_cons, h]

theorem lookup_eq_none_iff (a : VariableAssignments) (v : Variable) :
    lookup a v = none ↔ v ∉ keysOf a := by
  induction a with
  | nil => simp [lookup_nil, keysOf]
  | cons p rest ih =>
      rw [lookup_cons]
      by_cases h : p.1 = v
      · simp [h, keysOf]
      · simp only [if_neg h, ih, keysOf, List.map_cons, List.mem_cons]
        constructor
        · rintro hv (h1 | h2)
          · exact h h1.symm
          · exact hv h2
        · intro hv h2
          exact hv (Or.inr h2)

theorem lookup_isSome_of_mem (a : VariableAssignments) (v : Variable)
    (h : v ∈ keysOf a) : (lookup a v).isSome := by
  rcases ho : lookup a v with _ | w
  · exact absurd ((lookup_eq_none_iff a v).1 ho) (by simpa using h)
  · rfl

theorem any_key_iff (a : VariableAssignments) (k : Variable) :
    (a.any (fun p => p.1 == k)) = true ↔ k ∈ keysOf a := by
  simp only [List.any_eq_true, beq_iff_eq, keysOf, List.mem_map]

theorem lookup_append (a b : VariableAssignments) (v : Variable) :
    lookup (a ++ b) v =
      match lookup a v with
      | some x => some x
      | none => lookup b v := by
  induction a with
  | nil => simp [lookup_nil]
  | cons p rest ih =>
      rw [List.cons_append, lookup_cons, lookup_cons]
      by_cases h : p.1 = v
      · simp [h]
      · simpa [h] using ih

theorem lookup_map_update (a : VariableAssignments) (k : Variable) (v : Value)
    (k' : Variable) :
    lookup (a.map (fun p => if p.1 == k then (p.1, v) else p)) k' =
      if k' = k then (lookup a k').map (fun _ => v) else lookup a k' := by
  induction a with
  | nil => by_cases h : k' = k <;> simp [lookup_nil, h]
  | cons q rest ih =>
      rw [List.map_cons]
      by_cases hq : q.1 = k
      · rw [if_pos (by simpa using hq), lookup_cons, lookup_cons]
        by_cases hk : k' = k
        · subst hk
          simp only [hq, if_pos rfl]
          simp
        · have hqk : ¬ q.1 = k' := by rw [hq]; exact fun hh => hk hh.symm
          simp only [if_neg hqk, if_neg hk] at *
          simpa [hk] using ih
      · rw [if_neg (by simpa using hq), lookup_cons, lookup_cons]
        by_cases hqk : q.1 = k'
        · by_cases hk : k' = k
          · exact absurd (hk ▸ hqk) hq
          · simp [hqk, hk]
        · simp only [if_neg hqk]
          exact ih

theorem lookup_setEntry_self (a : VariableAssignments) (k : Variable) (v : Value) :
    lookup (setEntry a k v) k = some v := by
  unfold setEntry
  by_cases h : (a.any (fun p => p.1 == k)) = true
  · rw [if_pos h, lookup_map_update, if_pos rfl]
    have hk : k ∈ keysOf a := (any_key_iff a k).1 h
    rcases Option.isSome_iff_exists.1 (lookup_isSome_of_mem a k hk) with ⟨w, hw⟩
    rw [hw]; rfl
  · rw [if_neg h, lookup_append]
    have hk : k ∉ keysOf a := fun hm => h ((any_key_iff a k).2 hm)
    rw [(lookup_eq_none_iff a k).2 hk]
    simp [lookup_cons]

theorem lookup_setEntry_ne (a : VariableAssignments) (k k' : Variable) (v : Value)
    (h : k' ≠ k) : lookup (setEntry a k v) k' = lookup a k' := by
  unfold setEntry
  by_cases hany : (a.any (fun p => p.1 == k)) = true
  · rw [if_pos hany, lookup_map_update, if_neg h]
  · rw [if_neg hany, lookup_append]
    have : lookup [(k, v)] k' = none := by
      rw [lookup_cons, if_neg (fun hh => h hh.symm)]; rfl
    rcases ho : lookup a k' with _ | w <;> simp [this, ho]

theorem keysOf_setEntry_of_mem (a : VariableAssignments) (k : Variable) (v : Value)
    (h : k ∈ keysOf a) : keysOf (setEntry a k v) = keysOf a := by
  unfold setEntry
  rw [if_pos ((any_key_iff a k).2 h)]
  unfold keysOf
  rw [List.map_map]
  apply List.map_congr_left
  intro p _
  by_cases hp : p.1 = k <;> simp [hp]

theorem keysOf_setEntry_of_not_mem (a : VariableAssignments) (k : Variable) (v : Value)
    (h : k ∉ keysOf a) : keysOf (setEntry a k v) = keysOf a ++ [k] := by
  unfold setEntry
  rw [if_neg (fun hh => h ((any_key_iff a k).1 hh))]
  unfold keysOf
  simp

theorem map_update_of_no_key (a : VariableAssignments) (k : Variable) (v : Value)
    (h : ∀ p ∈ a, p.1 ≠ k) :
    a.map (fun p => if p.1 == k then (p.1, v) else p) = a := by
  induction a with
  | nil => rfl
  | cons q rest ih =>
      rw [List.map_cons, if_neg (by simpa using h q (by simp)),
        ih (fun p hp => h p (by simp [hp]))]

theorem foldl_setEntry_of_disjoint (l : List (Variable × Value)) :
    ∀ a : VariableAssignments, (∀ p ∈ l, p.1 ∉ keysOf a) →
    (l.map Prod.fst).Nodup →
    l.foldl (fun m p => setEntry m p.1 p.2) a = a ++ l := by
  induction l with
  | nil => intro a _ _; simp
  | cons p rest ih =>
      intro a hdisj hnodup
      have hp : p.1 ∉ keysOf a := hdisj p (by simp)
      have hset : setEntry a p.1 p.2 = a ++ [p] := by
        unfold setEntry
        rw [if_neg (fun hh => hp ((any_key_iff a p.1).1 hh))]
      rw [List.foldl_cons, hset, ih (a ++ [p]) ?disj ?nd, List.append_assoc,
        List.singleton_append]
      case disj =>
        intro q hq
        have h1 : q.1 ∉ keysOf a := hdisj q (by simp [hq])
        have h2 : q.1 ≠ p.1 := by
          simp only [List.map_cons, List.nodup_cons] at hnodup
          intro hh
          exact hnodup.1 (hh ▸ List.mem_map_of_mem Prod.fst hq)
        simp [keysOf, h2]
        simpa [keysOf] using h1
      case nd =>
        simp only [List.map_cons, List.nodup_cons] at hnodup
        exact hnodup.2

theorem fromEntries_eq_self (l : List (Variable × Value))
    (h : (l.map Prod.fst).Nodup) : fromEntries l = l := by
  have := foldl_setEntry_of_disjoint l [] (by simp [keysOf]) h
  simpa [fromEntries] using this

theorem objAssign_nil (a : VariableAssignments) : objAssign a [] = a := rfl

theorem lookup_objAssign_not_mem (b : VariableAssignments) :
    ∀ a, ∀ v ∉ keysOf b, lookup (objAssign a b) v = lookup a v := by
  induction b with
  | nil => intro a v _; rfl
  | cons p rest ih =>
      intro a v hv
      have hvp : v ≠ p.1 := by
        intro hh; exact hv (by simp [keysOf, hh])
      have hvr : v ∉ keysOf rest := by
        intro hh; exact hv (by simp [keysOf] at hh ⊢; exact Or.inr hh)
      show lookup (objAssign (setEntry a p.1 p.2) rest) v = lookup a v
      rw [ih _ v hvr, lookup_setEntry_ne _ _ _ _ hvp]

theorem lookup_objAssign_mem (b : VariableAssignments) :
    ∀ a, (keysOf b).Nodup → ∀ v ∈ keysOf b,
    lookup (objAssign a b) v = lookup b v := by
  induction b with
  | nil => intro a _ v hv; simp [keysOf] at hv
  | cons p rest ih =>
      intro a hnd v hv
      have hnd2 : (keysOf rest).Nodup ∧ p.1 ∉ keysOf rest := by
        simp only [keysOf, List.map_cons, List.nodup_cons] at hnd
        exact ⟨hnd.2, hnd.1⟩
      show lookup (objAssign (setEntry a p.1 p.2) rest) v = lookup (p :: rest) v
      by_cases hvp : v = p.1
      · subst hvp
        rw [lookup_objAssign_not_mem rest _ p.1 hnd2.2, lookup_setEntry_self,
          lookup_cons, if_pos rfl]
      · have hvr : v ∈ keysOf rest := by
          simp only [keysOf, List.map_cons, List.mem_cons] at hv
          rcases hv with hv | hv
          · exact absurd hv.symm (fun hh => hvp hh.symm)
          · simpa [keysOf] using hv
        rw [ih _ hnd2.1 v hvr, lookup_cons, if_neg (fun hh => hvp hh.symm)]

/-!  ### Lemmas about zipped (canonically ordered) assignments  -/

theorem keysOf_zip (vars : List Variable) (ws : List Value)
    (hlen : ws.length = vars.length) : keysOf (vars.zip ws) = vars := by
  unfold keysOf
  exact List.map_fst_zip vars ws (le_of_eq hlen.symm)

theorem lookup_zip_not_mem (vars : List Variable) :
    ∀ ws : List Value, ∀ v ∉ vars, lookup (vars.zip ws) v = none := by
  induction vars with
  | nil => intro ws v _; rfl
  | cons u vs ih =>
      intro ws v hv
      cases ws with
      | nil => rfl
      | cons w ws =>
          rw [List.zip_cons_cons, lookup_cons,
            if_neg (fun hh => hv (by simp only [List.mem_cons]; exact Or.inl hh.symm))]
          exact ih ws v (fun hh => hv (by simp [hh]))

theorem lookup_zip_get (vars : List Variable) :
    ∀ (ws : List Value), vars.Nodup → ws.length = vars.length →
    ∀ (i : Nat) (hi : i < vars.length),
    lookup (vars.zip ws) (vars.get ⟨i, hi⟩) = ws.get? i := by
  induction vars with
  | nil => intro ws _ _ i hi; simp at hi
  | cons u vs ih =>
      intro ws hnd hlen i hi
      cases ws with
      | nil => simp at hlen
      | cons w ws =>
          rw [List.zip_cons_cons]
          cases i with
          | zero => rw [lookup_cons]; simp
          | succ i =>
              have hu : u ∉ vs := (List.nodup_cons.1 hnd).1
              have hmem : vs.get ⟨i, by simpa using hi⟩ ∈ vs := List.get_mem vs _ _
              rw [lookup_cons]
              have : (vs.get ⟨i, by simpa using hi⟩ : Variable) ≠ u := by
                intro hh; exact hu (hh ▸ hmem)
              simp only [List.get_cons_succ]
              rw [if_neg (fun hh => this hh.symm)]
              exact ih ws (List.nodup_cons.1 hnd).2 (by simpa using hlen) i _

theorem setEntry_zip_set (vars : List Variable) :
    ∀ (ws : List Value), vars.Nodup → ws.length = vars.length →
    ∀ (i : Nat) (hi : i < vars.length) (val : Value),
    setEntry (vars.zip ws) (vars.get ⟨i, hi⟩) val = vars.zip (ws.set i val) := by
  induction vars with
  | nil => intro ws _ _ i hi; simp at hi
  | cons u vs ih =>
      intro ws hnd hlen i hi val
      cases ws with
      | nil => simp at hlen
      | cons w ws =>
          have hu : u ∉ vs := (List.nodup_cons.1 hnd).1
          cases i with
          | zero =>
              show setEntry ((u :: vs).zip (w :: ws)) u val =
                (u :: vs).zip ((w :: ws).set 0 val)
              have hcond : (((u :: vs).zip (w :: ws)).any (fun p => p.1 == u)) = true := by
                rw [List.zip_cons_cons]; simp
              unfold setEntry
              rw [if_pos hcond, List.zip_cons_cons, List.map_cons]
              have hhead :
                  (if ((u, w) : Variable × Value).1 == u then (((u, w) : Variable × Value).1, val) else (u, w)) =
                    (u, val) := by simp
              rw [hhead, map_update_of_no_key]
              · rfl
              · intro p hp hpu
                exact hu (hpu ▸ (List.of_mem_zip hp).1)
          | succ i =>
              have hi' : i < vs.length := by simpa using hi
              have hget : ((u :: vs).get ⟨i + 1, hi⟩ : Variable) = vs.get ⟨i, hi'⟩ := rfl
              have hkmem : (vs.get ⟨i, hi'⟩ : Variable) ∈ vs := List.get_mem vs _ _
              have hkeys : keysOf (vs.zip ws) = vs :=
                keysOf_zip vs ws (by simpa using hlen)
              have hkmem2 : (vs.get ⟨i, hi'⟩ : Variable) ∈ keysOf (vs.zip ws) := by
                rw [hkeys]; exact hkmem
              have hcondrest : ((vs.zip ws).any (fun p => p.1 == vs.get ⟨i, hi'⟩)) = true :=
                (any_key_iff _ _).2 hkmem2
              have hcond :
                  (((u :: vs).zip (w :: ws)).any (fun p => p.1 == vs.get ⟨i, hi'⟩)) = true := by
                rw [List.zip_cons_cons, List.any_cons, hcondrest, Bool.or_true]
              have hne : ¬ (((u, w) : Variable × Value).1 == vs.get ⟨i, hi'⟩) = true := by
                simp only [beq_iff_eq]
                intro hh; exact hu (hh ▸ hkmem)
              unfold setEntry
              rw [hget, if_pos hcond, List.zip_cons_cons, List.map_cons, if_neg hne]
              have hrest : (vs.zip ws).map
                    (fun p => if p.1 == vs.get ⟨i, hi'⟩ then (p.1, val) else p) =
                  setEntry (vs.zip ws) (vs.get ⟨i, hi'⟩) val := by
                unfold setEntry; rw [if_pos hcondrest]
              rw [hrest, ih ws (List.nodup_cons.1 hnd).2 (by simpa using hlen) i hi' val]
              rfl

theorem unsetCount_congr (vars : List Variable) (a a' : VariableAssignments)
    (h : ∀ v ∈ vars, lookup a v = lookup a' v) :
    unsetCount vars a = unsetCount vars a' := by
  unfold unsetCount
  rw [List.filter_congr (fun v hv => by rw [h v hv])]

theorem unsetCount_setEntry (vars : List Variable) (a : VariableAssignments)
    (v : Variable) (val : Value) (hnd : vars.Nodup) (hv : v ∈ vars)
    (hu : lookup a v = some .UNSET) (hval : val ≠ .UNSET) :
    unsetCount vars (setEntry a v val) + 1 = unsetCount vars a := by
  obtain ⟨l1, l2, rfl⟩ := List.append_of_mem hv
  have hv1 : v ∉ l1 := fun hh =>
    (List.disjoint_of_nodup_append hnd hh (by simp))
  have hv2 : v ∉ l2 := by
    have := (List.nodup_append.1 hnd).2.1
    exact (List.nodup_cons.1 this).1
  unfold unsetCount
  rw [List.filter_append, List.filter_append, List.filter_cons, List.filter_cons]
  have hpred1 : (lookup (setEntry a v val) v == some Value.UNSET) = false := by
    rw [lookup_setEntry_self]
    cases val <;> simp_all
  have hpred2 : (lookup a v == some Value.UNSET) = true := by rw [hu]; rfl
  rw [hpred1, hpred2]
  have hc1 : l1.filter (fun u => lookup (setEntry a v val) u == some Value.UNSET) =
      l1.filter (fun u => lookup a u == some Value.UNSET) := by
    apply List.filter_congr
    intro u hu1
    rw [lookup_setEntry_ne a v u val (fun hh => hv1 (hh ▸ hu1))]
  have hc2 : l2.filter (fun u => lookup (setEntry a v val) u == some Value.UNSET) =
      l2.filter (fun u => lookup a u == some Value.UNSET) := by
    apply List.filter_congr
    intro u hu2
    rw [lookup_setEntry_ne a v u val (fun hh => hv2 (hh ▸ hu2))]
  rw [hc1, hc2]
  simp only [List.length_append, if_true, if_false, cond_true, cond_false]
  simp [List.length_cons]
  omega

/-!  ### Variable-extraction lemmas  -/

theorem mem_addVar (acc : List Variable) (v u : Variable) :
    u ∈ addVar acc v ↔ u ∈ acc ∨ u = v := by
  unfold addVar
  by_cases h : v ∈ acc
  · rw [if_pos h]
    constructor
    · exact Or.inl
    · rintro (h1 | rfl)
      · exact h1
      · exact h
  · rw [if_neg h]; simp

theorem addVar_nodup (acc : List Variable) (v : Variable) (h : acc.Nodup) :
    (addVar acc v).Nodup := by
  unfold addVar
  by_cases hv : v ∈ acc
  · rwa [if_pos hv]
  · rw [if_neg hv]
    simpa [List.nodup_append] using ⟨h, hv⟩

theorem mem_foldl_addVar (l : List Variable) :
    ∀ acc u, u ∈ l.foldl addVar acc ↔ u ∈ acc ∨ u ∈ l := by
  induction l with
  | nil => intro acc u; simp
  | cons v rest ih =>
      intro acc u
      rw [List.foldl_cons, ih, mem_addVar]
      simp only [List.mem_cons]
      tauto

theorem foldl_addVar_nodup (l : List Variable) :
    ∀ acc, acc.Nodup → (l.foldl addVar acc).Nodup := by
  induction l with
  | nil => intro acc h; exact h
  | cons v rest ih =>
      intro acc h
      exact ih _ (addVar_nodup acc v h)

mutual
theorem getVariablesAux_eq_foldl : ∀ (e : BooleanExpr) (acc : List Variable),
    getVariablesAux e acc = (occurList e).foldl addVar acc
  | .and ops, acc => by
      show getVariablesList ops acc = (occurListOps ops).foldl addVar acc
      exact getVariablesList_eq_foldl ops acc
  | .or ops, acc => by
      show getVariablesList ops acc = (occurListOps ops).foldl addVar acc
      exact getVariablesList_eq_foldl ops acc
  | .not (Sum.inl v), acc => rfl
  | .not (Sum.inr e), acc => by
      show getVariablesAux e acc = (occurList e).foldl addVar acc
      exact getVariablesAux_eq_foldl e acc

theorem getVariablesList_eq_foldl :
    ∀ (l : List (Variable ⊕ BooleanExpr)) (acc : List Variable),
    getVariablesList l acc = (occurListOps l).foldl addVar acc
  | [], acc => rfl
  | Sum.inl v :: rest, acc => by
      show getVariablesList rest (addVar acc v) =
        (v :: occurListOps rest).foldl addVar acc
      rw [List.foldl_cons]
      exact getVariablesList_eq_foldl rest (addVar acc v)
  | Sum.inr e :: rest, acc => by
      show getVariablesList rest (getVariablesAux e acc) =
        (occurList e ++ occurListOps rest).foldl addVar acc
      rw [List.foldl_append, ← getVariablesAux_eq_foldl e acc]
      exact getVariablesList_eq_foldl rest (getVariablesAux e acc)
end

theorem getVariables_eq_foldl (e : BooleanExpr) :
    getVariables e = (occurList e).foldl addVar [] :=
  getVariablesAux_eq_foldl e []

theorem getVariables_nodup (e : BooleanExpr) : (getVariables e).Nodup := by
  rw [getVariables_eq_foldl]
  exact foldl_addVar_nodup _ [] (by simp)

theorem mem_getVariables_iff (e : BooleanExpr) (v : Variable) :
    v ∈ getVariables e ↔ v ∈ occurList e := by
  rw [getVariables_eq_foldl, mem_foldl_addVar]
  simp

/-!  ### Evaluator lemmas  -/

theorem exprValue_total (e : BooleanExpr) (a : VariableAssignments) :
    exprValue e a = .TRUE ∨ exprValue e a = .FALSE := by
  cases e <;> simp only [exprValue] <;> split <;> simp

theorem truthy_exprValue (e : BooleanExpr) (a : VariableAssignments) :
    (exprValue e a).truthy = true ↔ exprValue e a = .TRUE := by
  rcases exprValue_total e a with h | h <;> rw [h] <;> simp [Value.truthy]

theorem occurList_not (x : Variable ⊕ BooleanExpr) :
    occurList (.not x) = occurOperand x := by
  cases x <;> rfl

theorem occurListOps_cons (x : Variable ⊕ BooleanExpr)
    (rest : List (Variable ⊕ BooleanExpr)) :
    occurListOps (x :: rest) = occurOperand x ++ occurListOps rest := by
  cases x <;> rfl

mutual
theorem exprValue_congr : ∀ (e : BooleanExpr) (a a' : VariableAssignments),
    (∀ v ∈ occurList e, lookup a v = lookup a' v) →
    exprValue e a = exprValue e a'
  | .and ops, a, a', h => by
      show (if andAll ops a then Value.TRUE else Value.FALSE) =
        (if andAll ops a' then Value.TRUE else Value.FALSE)
      rw [andAll_congr ops a a' h]
  | .or ops, a, a', h => by
      show (if orAny ops a then Value.TRUE else Value.FALSE) =
        (if orAny ops a' then Value.TRUE else Value.FALSE)
      rw [orAny_congr ops a a' h]
  | .not x, a, a', h => by
      show (if operandValue x a == some .FALSE then Value.TRUE else Value.FALSE) =
        (if operandValue x a' == some .FALSE then Value.TRUE else Value.FALSE)
      rw [operandValue_congr x a a' (by rwa [occurList_not] at h)]

theorem operandValue_congr : ∀ (x : Variable ⊕ BooleanExpr)
    (a a' : VariableAssignments),
    (∀ v ∈ occurOperand x, lookup a v = lookup a' v) →
    operandValue x a = operandValue x a'
  | Sum.inl v, a, a', h => h v (by simp [occurOperand])
  | Sum.inr e, a, a', h => by
      show some (exprValue e a) = some (exprValue e a')
      rw [exprValue_congr e a a' h]

theorem andAll_congr : ∀ (ops : List (Variable ⊕ BooleanExpr))
    (a a' : VariableAssignments),
    (∀ v ∈ occurListOps ops, lookup a v = lookup a' v) →
    andAll ops a = andAll ops a'
  | [], _, _, _ => rfl
  | x :: rest, a, a', h => by
      show ((operandValue x a == some .TRUE) && andAll rest a) =
        ((operandValue x a' == some .TRUE) && andAll rest a')
      rw [operandValue_congr x a a'
          (fun v hv => h v (by rw [occurListOps_cons]; exact List.mem_append_left _ hv)),
        andAll_congr rest a a'
          (fun v hv => h v (by rw [occurListOps_cons]; exact List.mem_append_right _ hv))]

theorem orAny_congr : ∀ (ops : List (Variable ⊕ BooleanExpr))
    (a a' : VariableAssignments),
    (∀ v ∈ occurListOps ops, lookup a v = lookup a' v) →
    orAny ops a = orAny ops a'
  | [], _, _, _ => rfl
  | x :: rest, a, a', h => by
      show ((operandValue x a == some .TRUE) || orAny rest a) =
        ((operandValue x a' == some .TRUE) || orAny rest a')
      rw [operandValue_congr x a a'
          (fun v hv => h v (by rw [occurListOps_cons]; exact List.mem_append_left _ hv)),
        orAny_congr rest a a'
          (fun v hv => h v (by rw [occurListOps_cons]; exact List.mem_append_right _ hv))]
end

theorem exprValue_congr_vars (e : BooleanExpr) (a a' : VariableAssignments)
    (h : ∀ v ∈ getVariables e, lookup a v = lookup a' v) :
    exprValue e a = exprValue e a' :=
  exprValue_congr e a a' (fun v hv => h v ((mem_getVariables_iff e v).2 hv))

/-!  ### Backtracking-search lemmas  -/

theorem mem_keysOf_of_lookup (a : VariableAssignments) (v : Variable) (w : Value)
    (h : lookup a v = some w) : v ∈ keysOf a := by
  by_contra hmem
  rw [(lookup_eq_none_iff a v).2 hmem] at h
  exact Option.noConfusion h

theorem defaultSelect_legal (vars : List Variable) (h : ∀ v ∈ vars, v ≠ "") :
    LegalFor defaultSelect vars := by
  intro a
  constructor
  · intro hnone v hv hlook
    unfold defaultSelect at hnone
    cases hfind : vars.find? (fun u => lookup a u == some .UNSET) with
    | none =>
        have := List.find?_eq_none.1 hfind v hv
        simp [hlook] at this
    | some w =>
        rw [hfind] at hnone
        dsimp only at hnone
        by_cases hw : (w == "") = true
        · exact absurd (by simpa using hw) (h w (List.mem_of_find?_eq_some hfind))
        · rw [if_neg hw] at hnone
          exact Option.noConfusion hnone
  · intro v b hsome
    unfold defaultSelect at hsome
    cases hfind : vars.find? (fun u => lookup a u == some .UNSET) with
    | none => rw [hfind] at hsome; exact Option.noConfusion hsome
    | some w =>
        rw [hfind] at hsome
        dsimp only at hsome
        by_cases hw : (w == "") = true
        · rw [if_pos hw] at hsome; exact Option.noConfusion hsome
        · rw [if_neg hw] at hsome
          have hvw : w = v ∧ false = b := by
            have := Option.some.inj hsome
            exact ⟨congrArg Prod.fst this, congrArg Prod.snd this⟩
          obtain ⟨rfl, rfl⟩ := hvw
          refine ⟨List.mem_of_find?_eq_some hfind, ?_⟩
          simpa using List.find?_some hfind

theorem unsetCount_eq_zero (vars : List Variable) (a : VariableAssignments)
    (h : ∀ v ∈ vars, lookup a v ≠ some .UNSET) : unsetCount vars a = 0 := by
  unfold unsetCount
  rw [List.length_eq_zero]
  apply List.filter_eq_nil_iff.2
  intro v hv
  simp [h v hv]

theorem dpllFuel_succ_of_none (sel : SelectNextVariable) (e : BooleanExpr)
    (fuel : Nat) (a : VariableAssignments)
    (hsel : sel (getVariables e) a = none) :
    dpllFuel sel e (fuel + 1) a =
      some (if (exprValue e a).truthy then some a else none) := by
  simp only [dpllFuel, hsel]

theorem dpllFuel_succ_of_some (sel : SelectNextVariable) (e : BooleanExpr)
    (fuel : Nat) (a : VariableAssignments) (v : Variable) (b : Bool)
    (hsel : sel (getVariables e) a = some (v, b)) :
    dpllFuel sel e (fuel + 1) a =
      match dpllFuel sel e fuel
          (setEntry a v (if b then .TRUE else .FALSE)) with
      | none => none
      | some (some s) => some (some s)
      | some none =>
          dpllFuel sel e fuel (setEntry a v (if b then .FALSE else .TRUE)) := by
  simp only [dpllFuel, hsel]

theorem dpllFuel_isSome_iff (e : BooleanExpr) (sel : SelectNextVariable)
    (hlegal : LegalFor sel (getVariables e)) :
    ∀ (f : Nat) (a : VariableAssignments),
    ((dpllFuel sel e f a).isSome = true) ↔ unsetCount (getVariables e) a < f := by
  intro f
  induction f with
  | zero => intro a; simp [dpllFuel]
  | succ f ih =>
      intro a
      cases hsel : sel (getVariables e) a with
      | none =>
          have hzero : unsetCount (getVariables e) a = 0 :=
            unsetCount_eq_zero _ _ ((hlegal a).1 hsel)
          simp only [dpllFuel, hsel, hzero]
          simp
      | some vb =>
          obtain ⟨v, b⟩ := vb
          obtain ⟨hv, hunset⟩ := (hlegal a).2 v b hsel
          have hnd := getVariables_nodup e
          have hdec1 : unsetCount (getVariables e)
                (setEntry a v (if b then .TRUE else .FALSE)) + 1 =
              unsetCount (getVariables e) a :=
            unsetCount_setEntry _ _ _ _ hnd hv hunset (by cases b <;> simp)
          have hdec2 : unsetCount (getVariables e)
                (setEntry a v (if b then .FALSE else .TRUE)) + 1 =
              unsetCount (getVariables e) a :=
            unsetCount_setEntry _ _ _ _ hnd hv hunset (by cases b <;> simp)
          simp only [dpllFuel, hsel]
          cases hrec : dpllFuel sel e f (setEntry a v (if b then .TRUE else .FALSE)) with
          | none =>
              have h1 := ih (setEntry a v (if b then .TRUE else .FALSE))
              rw [hrec] at h1
              simp only [Option.isSome_none, Bool.false_eq_true, false_iff] at h1
              simp only [Option.isSome_none, Bool.false_eq_true, false_iff]
              omega
          | some r =>
              cases r with
              | some s =>
                  have h1 := ih (setEntry a v (if b then .TRUE else .FALSE))
                  rw [hrec] at h1
                  simp only [Option.isSome_some, true_iff] at h1
                  simp only [Option.isSome_some, true_iff]
                  omega
              | none =>
                  have h2 := ih (setEntry a v (if b then .FALSE else .TRUE))
                  rw [h2]
                  omega

theorem dpllFuel_sat (e : BooleanExpr) (sel : SelectNextVariable)
    (hlegal : LegalFor sel (getVariables e)) :
    ∀ (f : Nat) (a s : VariableAssignments), dpllFuel sel e f a = some (some s) →
    (∀ v, lookup a v ≠ some .UNSET → lookup s v = lookup a v) ∧
    keysOf s = keysOf a ∧
    exprValue e s = .TRUE ∧
    (∀ v ∈ getVariables e, lookup s v ≠ some .UNSET) := by
  intro f
  induction f with
  | zero => intro a s h; exact Option.noConfusion h
  | succ f ih =>
      intro a s h
      cases hsel : sel (getVariables e) a with
      | none =>
          simp only [dpllFuel, hsel] at h
          by_cases htr : (exprValue e a).truthy = true
          · rw [if_pos htr] at h
            have hsa : s = a := (Option.some.inj (Option.some.inj h)).symm
            subst hsa
            exact ⟨fun v _ => rfl, rfl, (truthy_exprValue e s).1 htr,
              (hlegal s).1 hsel⟩
          · rw [if_neg htr] at h
            exact Option.noConfusion (Option.some.inj h)
      | some vb =>
          obtain ⟨v, b⟩ := vb
          obtain ⟨hv, hunset⟩ := (hlegal a).2 v b hsel
          have hvkeys : v ∈ keysOf a := mem_keysOf_of_lookup a v _ hunset
          simp only [dpllFuel, hsel] at h
          have main : ∀ (val : Value), val ≠ .UNSET →
              dpllFuel sel e f (setEntry a v val) = some (some s) →
              (∀ u, lookup a u ≠ some .UNSET → lookup s u = lookup a u) ∧
              keysOf s = keysOf a ∧
              exprValue e s = .TRUE ∧
              (∀ u ∈ getVariables e, lookup s u ≠ some .UNSET) := by
            intro val hval hrec
            obtain ⟨hpres, hkeys, hsat, hset⟩ := ih (setEntry a v val) s hrec
            refine ⟨?_, ?_, hsat, hset⟩
            · intro u hu
              have huv : u ≠ v := fun hh => hu (hh ▸ hunset)
              rw [hpres u (by rw [lookup_setEntry_ne a v u val huv]; exact hu),
                lookup_setEntry_ne a v u val huv]
            · rw [hkeys, keysOf_setEntry_of_mem a v val hvkeys]
          cases hrec : dpllFuel sel e f (setEntry a v (if b then .TRUE else .FALSE)) with
          | none => rw [hrec] at h; exact Option.noConfusion h
          | some r =>
              cases r with
              | some s0 =>
                  rw [hrec] at h
                  have hs : s0 = s := Option.some.inj (Option.some.inj h)
                  subst hs
                  exact main _ (by cases b <;> simp) hrec
              | none =>
                  rw [hrec] at h
                  exact main _ (by cases b <;> simp) h

theorem dpllFuel_unsat (e : BooleanExpr) (sel : SelectNextVariable)
    (hlegal : LegalFor sel (getVariables e)) :
    ∀ (f : Nat) (a : VariableAssignments), dpllFuel sel e f a = some none →
    ∀ t : VariableAssignments,
    (∀ v ∈ getVariables e, lookup t v = some .TRUE ∨ lookup t v = some .FALSE) →
    (∀ v ∈ getVariables e, lookup a v ≠ some .UNSET → lookup t v = lookup a v) →
    exprValue e t ≠ .TRUE := by
  intro f
  induction f with
  | zero => intro a h; exact absurd h (by simp [dpllFuel])
  | succ f ih =>
      intro a h t htotal hagree
      cases hsel : sel (getVariables e) a with
      | none =>
          simp only [dpllFuel, hsel] at h
          by_cases htr : (exprValue e a).truthy = true
          · rw [if_pos htr] at h
            exact absurd (Option.some.inj h) (by simp)
          · have hfa : exprValue e a = .FALSE := by
              rcases exprValue_total e a with h1 | h1
              · rw [h1] at htr; simp [Value.truthy] at htr
              · exact h1
            have hcong : exprValue e t = exprValue e a :=
              exprValue_congr_vars e t a
                (fun v hv => hagree v hv ((hlegal a).1 hsel v hv))
            rw [hcong, hfa]
            intro hh
            exact Value.noConfusion hh
      | some vb =>
          obtain ⟨v, b⟩ := vb
          obtain ⟨hv, hunset⟩ := (hlegal a).2 v b hsel
          simp only [dpllFuel, hsel] at h
          have hbranch : ∀ (val : Value),
              dpllFuel sel e f (setEntry a v val) = some none →
              lookup t v = some val → exprValue e t ≠ .TRUE := by
            intro val heq hval
            apply ih (setEntry a v val) heq t htotal
            intro u hu hne
            by_cases huv : u = v
            · subst huv
              rw [hval, lookup_setEntry_self]
            · rw [lookup_setEntry_ne a v u val huv] at hne ⊢
              exact hagree u hu hne
          cases hrec : dpllFuel sel e f (setEntry a v (if b then .TRUE else .FALSE)) with
          | none => rw [hrec] at h; exact Option.noConfusion h
          | some r =>
              cases r with
              | some s0 =>
                  rw [hrec] at h
                  exact absurd (Option.some.inj h) (by simp)
              | none =>
                  rw [hrec] at h
                  rcases htotal v hv with hT | hF
                  · cases b with
                    | true => exact hbranch .TRUE (by simpa using hrec) hT
                    | false => exact hbranch .TRUE (by simpa using h) hT
                  · cases b with
                    | true => exact hbranch .FALSE (by simpa using h) hF
                    | false => exact hbranch .FALSE (by simpa using hrec) hF
theorem dpllSolution_fuel (e : BooleanExpr) (a : VariableAssignments)
    (sel : SelectNextVariable) (hlegal : LegalFor sel (getVariables e)) :
    dpllFuel sel e (unsetCount (getVariables e) a + 1) a =
      some (dpllSolution e a sel) := by
  have hs : (dpllFuel sel e (unsetCount (getVariables e) a + 1) a).isSome = true :=
    (dpllFuel_isSome_iff e sel hlegal _ a).2 (Nat.lt_succ_self _)
  unfold dpllSolution
  cases h : dpllFuel sel e (unsetCount (getVariables e) a + 1) a with
  | none => rw [h] at hs; exact Bool.noConfusion hs
  | some r => rfl

theorem lookup_map_const (vars : List Variable) (c : Value) (v : Variable) :
    lookup (vars.map (fun u => (u, c))) v =
      if v ∈ vars then some c else none := by
  induction vars with
  | nil => simp [lookup_nil]
  | cons u vs ih =>
      rw [List.map_cons, lookup_cons]
      by_cases h : u = v
      · subst h; simp
      · rw [if_neg h, ih]
        by_cases hv : v ∈ vs
        · simp [hv]
        · have : v ∉ u :: vs := by
            intro hh
            rcases List.mem_cons.1 hh with hh | hh
            · exact h hh.symm
            · exact hv hh
          simp [hv, this]

theorem getInitialAssignments_eq (e : BooleanExpr) :
    getInitialAssignments e = (getVariables e).map (fun v => (v, Value.UNSET)) := by
  unfold getInitialAssignments
  apply fromEntries_eq_self
  have : ((getVariables e).map (fun v => (v, Value.UNSET))).map Prod.fst =
      getVariables e := by
    rw [List.map_map]
    simp [Function.comp_def]
  rw [this]
  exact getVariables_nodup e

theorem lookup_getInitial (e : BooleanExpr) (v : Variable) :
    lookup (getInitialAssignments e) v =
      if v ∈ getVariables e then some .UNSET else none := by
  rw [getInitialAssignments_eq, lookup_map_const]

theorem unsetCount_getInitial (e : BooleanExpr) :
    unsetCount (getVariables e) (getInitialAssignments e) =
      (getVariables e).length := by
  unfold unsetCount
  have : (getVariables e).filter
      (fun v => lookup (getInitialAssignments e) v == some .UNSET) =
      getVariables e := by
    apply List.filter_eq_self.2
    intro v hv
    rw [lookup_getInitial, if_pos hv]
    rfl
  rw [this]

/-!  ### Enumerator characterization  -/

theorem padLE_length (w : Nat) (l : List Bool) (h : l.length ≤ w) :
    (padLE w l).length = w := by
  unfold padLE; simp; omega

theorem specBits_length (w k : Nat) (h : k < 2 ^ w) :
    (specBits w k).length = w := by
  unfold specBits
  rw [List.length_reverse, padLE_length w _ (natBitsLE_length_le w k h)]

theorem specBits_succ_low (m k : Nat) (h : k < 2 ^ m) :
    specBits (m + 1) k = false :: specBits m k := by
  unfold specBits padLE
  have hlen := natBitsLE_length_le m k h
  have hrep : m + 1 - (natBitsLE k).length =
      (m - (natBitsLE k).length) + 1 := by omega
  rw [hrep, List.replicate_succ', ← List.append_assoc, List.reverse_append]
  simp

theorem padLE_of_length_eq (w : Nat) (l : List Bool) (h : l.length = w) :
    padLE w l = l := by
  unfold padLE
  rw [h, Nat.sub_self]
  simp

theorem specBits_succ_high (m k : Nat) (h : k < 2 ^ m) :
    specBits (m + 1) (2 ^ m + k) = true :: specBits m k := by
  show (padLE (m + 1) (natBitsLE (2 ^ m + k))).reverse =
    true :: (padLE m (natBitsLE k)).reverse
  rw [natBitsLE_pow_add m k h]
  have hlen : (padLE m (natBitsLE k) ++ [true]).length = m + 1 := by
    rw [List.length_append, padLE_length m _ (natBitsLE_length_le m k h)]
    rfl
  rw [padLE_of_length_eq _ _ hlen, List.reverse_append]
  rfl

theorem range_map_specBits : ∀ m : Nat,
    (List.range (2 ^ m)).map (specBits m) = allBitLists m := by
  intro m
  induction m with
  | zero => rfl
  | succ m ih =>
      have hsplit : 2 ^ (m + 1) = 2 ^ m + 2 ^ m := by ring
      rw [hsplit, List.range_add, List.map_append, List.map_map]
      have h1 : (List.range (2 ^ m)).map (specBits (m + 1)) =
          (allBitLists m).map (fun q => false :: q) := by
        rw [← ih, List.map_map]
        apply List.map_congr_left
        intro k hk
        exact specBits_succ_low m k (List.mem_range.1 hk)
      have h2 : (List.range (2 ^ m)).map (specBits (m + 1) ∘ (fun i => 2 ^ m + i)) =
          (allBitLists m).map (fun q => true :: q) := by
        rw [← ih, List.map_map]
        apply List.map_congr_left
        intro k hk
        exact specBits_succ_high m k (List.mem_range.1 hk)
      rw [h1, h2]
      rfl

theorem allBitLists_length (m : Nat) (bs : List Bool) (h : bs ∈ allBitLists m) :
    bs.length = m := by
  induction m generalizing bs with
  | zero => simp [allBitLists] at h; simp [h]
  | succ m ih =>
      simp only [allBitLists, List.mem_append, List.mem_map] at h
      rcases h with ⟨q, hq, rfl⟩ | ⟨q, hq, rfl⟩ <;>
        simp [ih q hq]

theorem allBitLists_complete (m : Nat) (bs : List Bool) (h : bs.length = m) :
    bs ∈ allBitLists m := by
  induction m generalizing bs with
  | zero =>
      rw [List.length_eq_zero] at h
      simp [allBitLists, h]
  | succ m ih =>
      cases bs with
      | nil => simp at h
      | cons b rest =>
          simp only [allBitLists, List.mem_append, List.mem_map]
          cases b
          · exact Or.inl ⟨rest, ih rest (by simpa using h), rfl⟩
          · exact Or.inr ⟨rest, ih rest (by simpa using h), rfl⟩

theorem idxEntries_eq_zip (vars : List Variable) :
    ∀ (vals : List Value) (i : Nat), i + vals.length ≤ vars.length →
    idxEntries vars i vals = (vars.drop i).zip vals := by
  intro vals
  induction vals with
  | nil => intro i _; simp [idxEntries]
  | cons v rest ih =>
      intro i hle
      have hi : i < vars.length := by simp at hle; omega
      have hkey : entryKey vars i = vars.get ⟨i, hi⟩ := by
        unfold entryKey
        rw [List.get?_eq_get hi]
      have hdrop : vars.drop i = vars.get ⟨i, hi⟩ :: vars.drop (i + 1) :=
        List.drop_eq_getElem_cons hi
      rw [idxEntries, hkey, hdrop, List.zip_cons_cons,
        ih (i + 1) (by simp at hle ⊢; omega)]

theorem padBits_toBinStr (m k : Nat) (hm : 1 ≤ m) (hk : k < 2 ^ m) :
    padBits m (toBinStr k) = specBits m k := by
  by_cases h0 : k = 0
  · subst h0
    have h1 : toBinStr 0 = [false] := rfl
    have h2 : padBits m [false] = List.replicate (m - 1) false ++ [false] := rfl
    have h3 : specBits m 0 = List.replicate m false := by
      unfold specBits padLE
      rw [natBitsLE_zero]
      simp [List.reverse_replicate]
    rw [h1, h2, h3]
    obtain ⟨m', rfl⟩ : ∃ m', m = m' + 1 := ⟨m - 1, by omega⟩
    simp only [Nat.add_sub_cancel]
    rw [← List.replicate_succ']
  · unfold padBits toBinStr specBits padLE
    rw [if_neg h0, List.reverse_append, List.reverse_replicate,
      List.length_reverse]

theorem allPossibleAssignments_eq (vars : List Variable) (hnd : vars.Nodup)
    (hne : vars ≠ []) :
    allPossibleAssignments vars =
      (allBitLists vars.length).map (zipAssign vars) := by
  have hm : 1 ≤ vars.length := List.length_pos.2 hne
  unfold allPossibleAssignments sequence
  rw [← range_map_specBits vars.length, List.map_map]
  apply List.map_congr_left
  intro k hk
  have hk2 : k < 2 ^ vars.length := List.mem_range.1 hk
  show fromEntries (idxEntries vars 0
      ((padBits vars.length (toBinStr k)).map bitVal)) =
    zipAssign vars (specBits vars.length k)
  rw [padBits_toBinStr _ _ hm hk2]
  have hlen : ((specBits vars.length k).map bitVal).length = vars.length := by
    rw [List.length_map, specBits_length _ _ hk2]
  rw [idxEntries_eq_zip vars _ 0 (by rw [hlen]; omega)]
  rw [List.drop_zero]
  apply fromEntries_eq_self
  show keysOf (vars.zip ((specBits vars.length k).map bitVal)) |>.Nodup
  rw [keysOf_zip vars _ hlen]
  exact hnd

theorem mem_allPossible_iff (vars : List Variable) (hnd : vars.Nodup)
    (hne : vars ≠ []) (a : VariableAssignments) :
    a ∈ allPossibleAssignments vars ↔
      ∃ bits : List Bool, bits.length = vars.length ∧ a = zipAssign vars bits := by
  rw [allPossibleAssignments_eq vars hnd hne]
  simp only [List.mem_map]
  constructor
  · rintro ⟨bits, hb, rfl⟩
    exact ⟨bits, allBitLists_length _ _ hb, rfl⟩
  · rintro ⟨bits, hlen, rfl⟩
    exact ⟨bits, allBitLists_complete _ _ hlen, rfl⟩

/-!  ### Generic list helpers  -/

theorem find?_append {α : Type} (l1 l2 : List α) (p : α → Bool) :
    (l1 ++ l2).find? p =
      match l1.find? p with
      | some x => some x
      | none => l2.find? p := by
  induction l1 with
  | nil => simp
  | cons x rest ih =>
      by_cases h : p x = true
      · rw [List.cons_append, List.find?_cons_of_pos _ h,
          List.find?_cons_of_pos _ h]
      · rw [List.cons_append, List.find?_cons_of_neg _ (by simpa using h),
          List.find?_cons_of_neg _ (by simpa using h), ih]

theorem find?_eq_head?_filter {α : Type} (l : List α) (p : α → Bool) :
    l.find? p = (l.filter p).head? := by
  induction l with
  | nil => rfl
  | cons x rest ih =>
      by_cases h : p x = true
      · rw [List.find?_cons_of_pos _ h, List.filter_cons_of_pos h]
        rfl
      · rw [List.find?_cons_of_neg _ (by simpa using h),
          List.filter_cons_of_neg (by simpa using h), ih]

theorem find?_first {α : Type} (l : List α) (p : α → Bool) :
    ∀ (i : Nat) (hi : i < l.length), p (l.get ⟨i, hi⟩) = true →
    (∀ j, j < i → ∀ hj : j < l.length, p (l.get ⟨j, hj⟩) = false) →
    l.find? p = some (l.get ⟨i, hi⟩) := by
  induction l with
  | nil => intro i hi; simp at hi
  | cons x rest ih =>
      intro i hi hp hbefore
      cases i with
      | zero => exact List.find?_cons_of_pos _ hp
      | succ i =>
          have hx : p x = false := hbefore 0 (Nat.succ_pos i) (Nat.succ_pos _)
          rw [List.find?_cons_of_neg _ (by simp [hx])]
          exact ih i (by simpa using hi) hp
            (fun j hj hj2 => hbefore (j + 1) (by omega) (by simpa using hj2))

theorem set_at_append (l1 : List Value) (x : Value) (l2 : List Value) (y : Value) :
    (l1 ++ x :: l2).set l1.length y = l1 ++ y :: l2 := by
  induction l1 with
  | nil => rfl
  | cons z rest ih => simp [List.set_cons_succ, ih]

theorem get?_at_append (l1 : List Value) (x : Value) (l2 : List Value) :
    (l1 ++ x :: l2).get? l1.length = some x := by
  induction l1 with
  | nil => rfl
  | cons z rest ih => simpa using ih

theorem map_const_eq_zip (vars : List Variable) (c : Value) :
    vars.map (fun v => (v, c)) = vars.zip (List.replicate vars.length c) := by
  induction vars with
  | nil => rfl
  | cons u vs ih => simp [List.replicate_succ, ih]

theorem lookup_zip_map_bitVal (vars : List Variable) (hnd : vars.Nodup)
    (ws : List Value) (hlen : ws.length = vars.length)
    (v : Variable) (hv : v ∈ vars) :
    ∃ i : Fin vars.length, v = vars.get i ∧
      lookup (vars.zip ws) v = ws.get? i.val := by
  obtain ⟨i, hi⟩ := List.mem_iff_get.1 hv
  exact ⟨i, hi.symm, by rw [← hi]; exact lookup_zip_get vars ws hnd hlen i.val i.isLt⟩

theorem bitVal_ne_unset (b : Bool) : bitVal b ≠ .UNSET := by
  cases b <;> simp [bitVal]

theorem dpll_default_lex (e : BooleanExpr)
    (hnames : ∀ v ∈ getVariables e, v ≠ "") :
    ∀ (rem : Nat) (p : List Bool),
    p.length + rem = (getVariables e).length →
    dpllFuel defaultSelect e (rem + 1)
        ((getVariables e).zip (p.map bitVal ++ List.replicate rem Value.UNSET)) =
      some (((allBitLists rem).map
          (fun q => zipAssign (getVariables e) (p ++ q))).find?
        (fun t => exprValue e t == Value.TRUE)) := by
  have hnd := getVariables_nodup e
  intro rem
  induction rem with
  | zero =>
      intro p hplen
      simp only [List.replicate_zero, List.append_nil] at *
      have hlen : (p.map bitVal).length = (getVariables e).length := by
        rw [List.length_map]; omega
      have hsel : defaultSelect (getVariables e)
          ((getVariables e).zip (p.map bitVal)) = none := by
        unfold defaultSelect
        have hfind : (getVariables e).find?
            (fun v => lookup ((getVariables e).zip (p.map bitVal)) v ==
              some Value.UNSET) = none := by
          apply List.find?_eq_none.2
          intro v hv
          obtain ⟨i, rfl, hlook⟩ :=
            lookup_zip_map_bitVal (getVariables e) hnd (p.map bitVal) hlen v hv
          rw [hlook]
          have hip : i.val < p.length := by
            have := i.isLt; omega
          rw [List.get?_map, List.get?_eq_get hip]
          cases p.get ⟨i.val, hip⟩ <;> decide
        rw [hfind]
      rw [dpllFuel_succ_of_none defaultSelect e 0 _ hsel]
      have hall0 : allBitLists 0 = [[]] := rfl
      rw [hall0, List.map_singleton, List.append_nil]
      show _ = some (List.find? (fun t => exprValue e t == Value.TRUE)
        [zipAssign (getVariables e) p])
      unfold zipAssign
      by_cases hT : exprValue e ((getVariables e).zip (p.map bitVal)) = .TRUE
      · rw [if_pos ((truthy_exprValue _ _).2 hT)]
        rw [List.find?_cons_of_pos _ (by simp [hT])]
      · have hF : exprValue e ((getVariables e).zip (p.map bitVal)) = .FALSE := by
          rcases exprValue_total e ((getVariables e).zip (p.map bitVal)) with h | h
          · exact absurd h hT
          · exact h
        rw [if_neg (by rw [hF]; simp [Value.truthy])]
        rw [List.find?_cons_of_neg _ (by simp [hF]), List.find?_nil]
  | succ rem ih =>
      intro p hplen
      have hk : p.length < (getVariables e).length := by omega
      set vars := getVariables e with hvars
      set vk : Variable := vars.get ⟨p.length, hk⟩ with hvk
      have hkmap : (p.map bitVal).length = p.length := List.length_map _ _
      have hws : p.map bitVal ++ List.replicate (rem + 1) Value.UNSET =
          p.map bitVal ++ Value.UNSET :: List.replicate rem Value.UNSET := by
        rw [List.replicate_succ]
      have hwslen : (p.map bitVal ++ Value.UNSET ::
          List.replicate rem Value.UNSET).length = vars.length := by
        simp only [List.length_append, List.length_cons, List.length_replicate,
          hkmap]
        omega
      rw [hws]
      set a : VariableAssignments :=
        vars.zip (p.map bitVal ++ Value.UNSET :: List.replicate rem Value.UNSET)
        with ha
      have hlook : ∀ (j : Nat) (hj : j < vars.length),
          lookup a (vars.get ⟨j, hj⟩) =
            (p.map bitVal ++ Value.UNSET :: List.replicate rem Value.UNSET).get? j :=
        fun j hj => lookup_zip_get vars _ hnd hwslen j hj
      have hsel : defaultSelect vars a = some (vk, false) := by
        unfold defaultSelect
        have hfind : vars.find? (fun v => lookup a v == some Value.UNSET) =
            some vk := by
          apply find?_first vars _ p.length hk
          · rw [hlook p.length hk, ← hkmap, get?_at_append]
            rfl
          · intro j hj hj2
            rw [hlook j hj2]
            have hjlen : j < (p.map bitVal).length := by omega
            rw [List.get?_append hjlen, List.get?_map,
              List.get?_eq_get (by omega : j < p.length)]
            cases p.get ⟨j, by omega⟩ <;> decide
        rw [hfind]
        dsimp only
        have : ¬ (vk == "") = true := by
          simp only [beq_iff_eq]
          exact hnames vk (List.get_mem vars _ _)
        rw [if_neg this]
      have hset : ∀ b : Bool, setEntry a vk (bitVal b) =
          vars.zip ((p ++ [b]).map bitVal ++ List.replicate rem Value.UNSET) := by
        intro b
        rw [ha, hvk, setEntry_zip_set vars _ hnd hwslen p.length hk (bitVal b)]
        congr 1
        rw [← hkmap, set_at_append, List.map_append]
        simp
      have hSetF : setEntry a vk Value.FALSE =
          vars.zip ((p ++ [false]).map bitVal ++ List.replicate rem Value.UNSET) :=
        hset false
      have hSetT : setEntry a vk Value.TRUE =
          vars.zip ((p ++ [true]).map bitVal ++ List.replicate rem Value.UNSET) :=
        hset true
      have ihF := ih (p ++ [false])
        (by simp only [List.length_append, List.length_cons, List.length_nil]; omega)
      have ihT := ih (p ++ [true])
        (by simp only [List.length_append, List.length_cons, List.length_nil]; omega)
      have hif1 : (if (false : Bool) then Value.TRUE else Value.FALSE) =
          Value.FALSE := rfl
      have hif2 : (if (false : Bool) then Value.FALSE else Value.TRUE) =
          Value.TRUE := rfl
      have hstep := dpllFuel_succ_of_some defaultSelect e (rem + 1) a vk false hsel
      rw [hif1, hif2] at hstep
      rw [hstep, hSetF, hSetT, ihF, ihT]
      have hsplit : allBitLists (rem + 1) =
          (allBitLists rem).map (fun q => false :: q) ++
          (allBitLists rem).map (fun q => true :: q) := rfl
      rw [hsplit, List.map_append, List.map_map, List.map_map, find?_append]
      have hcomp : ∀ b : Bool,
          ((fun q => zipAssign vars (p ++ q)) ∘ (fun q => b :: q)) =
            (fun q => zipAssign vars ((p ++ [b]) ++ q)) := by
        intro b
        funext q
        simp only [Function.comp_apply]
        rw [List.append_cons]
      rw [hcomp false, hcomp true]
      cases hF1 : ((allBitLists rem).map
          (fun q => zipAssign vars ((p ++ [false]) ++ q))).find?
            (fun t => exprValue e t == Value.TRUE) with
      | some s => rfl
      | none => rfl

/-!  ### Helpers for the claim theorems  -/

theorem keysOf_getInitial (e : BooleanExpr) :
    keysOf (getInitialAssignments e) = getVariables e := by
  rw [getInitialAssignments_eq]
  unfold keysOf
  rw [List.map_map]
  simp [Function.comp_def]

theorem lookup_entry_of_nodup (s : VariableAssignments) :
    (keysOf s).Nodup → ∀ p ∈ s, lookup s p.1 = some p.2 := by
  induction s with
  | nil => intro _ p hp; simp at hp
  | cons q rest ih =>
      intro hnd p hp
      have hq : q.1 ∉ keysOf rest := by
        simp only [keysOf, List.map_cons, List.nodup_cons] at hnd
        exact hnd.1
      rcases List.mem_cons.1 hp with rfl | hp
      · rw [lookup_cons, if_pos rfl]
      · have hne : q.1 ≠ p.1 := by
          intro hh
          exact hq (hh ▸ List.mem_map_of_mem Prod.fst hp)
        rw [lookup_cons, if_neg hne]
        exact ih (by
          simp only [keysOf, List.map_cons, List.nodup_cons] at hnd
          exact hnd.2) p hp

theorem bitVal_roundtrip (ws : List Value) (h : ∀ w ∈ ws, w ≠ .UNSET) :
    (ws.map (fun w => w == Value.TRUE)).map bitVal = ws := by
  induction ws with
  | nil => rfl
  | cons w rest ih =>
      have hw := h w (by simp)
      have hrest := ih (fun u hu => h u (by simp [hu]))
      cases w
      · exact absurd rfl hw
      · simp only [List.map_cons, hrest]
        rfl
      · simp only [List.map_cons, hrest]
        rfl

theorem total_on_zipAssign (vars : List Variable) (hnd : vars.Nodup)
    (bits : List Bool) (hlen : bits.length = vars.length) :
    ∀ v ∈ vars, lookup (zipAssign vars bits) v = some .TRUE ∨
      lookup (zipAssign vars bits) v = some .FALSE := by
  intro v hv
  obtain ⟨i, rfl, hlook⟩ := lookup_zip_map_bitVal vars hnd (bits.map bitVal)
    (by rw [List.length_map]; exact hlen) v hv
  rw [show zipAssign vars bits = vars.zip (bits.map bitVal) from rfl, hlook]
  have hib : i.val < bits.length := by rw [hlen]; exact i.isLt
  rw [List.get?_map, List.get?_eq_get hib]
  cases bits.get ⟨i.val, hib⟩
  · right; rfl
  · left; rfl

theorem find?_split {α : Type} (l : List α) (p : α → Bool) (x : α)
    (h : l.find? p = some x) :
    ∃ pre post, l = pre ++ x :: post ∧ ∀ u ∈ pre, p u = false := by
  induction l with
  | nil => exact Option.noConfusion h
  | cons y rest ih =>
      by_cases hy : p y = true
      · rw [List.find?_cons_of_pos _ hy] at h
        obtain rfl : y = x := Option.some.inj h
        exact ⟨[], rest, rfl, by simp⟩
      · rw [List.find?_cons_of_neg _ (by simpa using hy)] at h
        obtain ⟨pre, post, rfl, hpre⟩ := ih h
        refine ⟨y :: pre, post, rfl, ?_⟩
        intro u hu
        rcases List.mem_cons.1 hu with rfl | hu
        · simpa using hy
        · exact hpre u hu

theorem operand_total (x : Variable ⊕ BooleanExpr) (m : VariableAssignments)
    (h : ∀ v ∈ occurOperand x, lookup m v = some .TRUE ∨ lookup m v = some .FALSE) :
    operandValue x m = some .TRUE ∨ operandValue x m = some .FALSE := by
  cases x with
  | inl v => exact h v (by simp [occurOperand])
  | inr e =>
      rcases exprValue_total e m with he | he
      · left; show some (exprValue e m) = _; rw [he]
      · right; show some (exprValue e m) = _; rw [he]

theorem occur_xor (a b : Variable ⊕ BooleanExpr) :
    occurList (xor a b) =
      (occurOperand a ++ (occurOperand b ++ [])) ++
      ((occurOperand a ++ (occurOperand b ++ [])) ++ []) := by
  show occurListOps [Sum.inr (BooleanExpr.and [a, Sum.inr (BooleanExpr.not b)]),
    Sum.inr (BooleanExpr.and [Sum.inr (BooleanExpr.not a), b])] = _
  rw [occurListOps_cons, occurListOps_cons]
  show (occurList (BooleanExpr.and [a, Sum.inr (BooleanExpr.not b)]) ++
      (occurList (BooleanExpr.and [Sum.inr (BooleanExpr.not a), b]) ++
        occurListOps [])) = _
  have h1 : occurList (BooleanExpr.and [a, Sum.inr (BooleanExpr.not b)]) =
      occurOperand a ++ (occurOperand b ++ []) := by
    show occurListOps [a, Sum.inr (BooleanExpr.not b)] = _
    rw [occurListOps_cons, occurListOps_cons]
    show occurOperand a ++ (occurList (BooleanExpr.not b) ++ occurListOps []) = _
    rw [occurList_not]
    rfl
  have h2 : occurList (BooleanExpr.and [Sum.inr (BooleanExpr.not a), b]) =
      occurOperand a ++ (occurOperand b ++ []) := by
    show occurListOps [Sum.inr (BooleanExpr.not a), b] = _
    rw [occurListOps_cons, occurListOps_cons]
    show occurList (BooleanExpr.not a) ++ (occurOperand b ++ occurListOps []) = _
    rw [occurList_not]
    rfl
  rw [h1, h2]
  rfl

theorem getSolution_empty_eq (e : BooleanExpr) (sel : SelectNextVariable) :
    getSolution e [] sel = dpllSolution e (getInitialAssignments e) sel := rfl

theorem getSolution_some_analysis (e : BooleanExpr) (sel : SelectNextVariable)
    (hlegal : LegalFor sel (getVariables e)) (s : VariableAssignments)
    (h : getSolution e [] sel = some s) :
    exprValue e s = .TRUE ∧ keysOf s = getVariables e ∧
    (∀ v ∈ getVariables e, lookup s v ≠ some .UNSET) := by
  rw [getSolution_empty_eq] at h
  have hfuel := dpllSolution_fuel e (getInitialAssignments e) sel hlegal
  rw [h] at hfuel
  obtain ⟨_, hkeys, hsat, hset⟩ := dpllFuel_sat e sel hlegal _ _ _ hfuel
  exact ⟨hsat, hkeys.trans (keysOf_getInitial e), hset⟩

theorem mem_bruteForce_of_solution (e : BooleanExpr) (sel : SelectNextVariable)
    (hlegal : LegalFor sel (getVariables e)) (s : VariableAssignments)
    (hne : getVariables e ≠ []) (h : getSolution e [] sel = some s) :
    s ∈ bruteForceAllSolutions e := by
  obtain ⟨hsat, hkeys, hset⟩ := getSolution_some_analysis e sel hlegal s h
  have hnd : (keysOf s).Nodup := by rw [hkeys]; exact getVariables_nodup e
  have hsplit : s = (keysOf s).zip (s.map Prod.snd) := by
    show s = (List.map Prod.fst s).zip (List.map Prod.snd s)
    exact List.zip_of_prod rfl rfl
  have hvals : ∀ w ∈ s.map Prod.snd, w ≠ .UNSET := by
    intro w hw
    obtain ⟨p, hp, rfl⟩ := List.mem_map.1 hw
    have hlook := lookup_entry_of_nodup s hnd p hp
    have hp1 : p.1 ∈ getVariables e := by
      rw [← hkeys]
      exact List.mem_map_of_mem Prod.fst hp
    intro hcon
    exact hset p.1 hp1 (by rw [hlook, hcon])
  have hbits : s = zipAssign (getVariables e)
      ((s.map Prod.snd).map (fun w => w == Value.TRUE)) := by
    show s = (getVariables e).zip _
    rw [bitVal_roundtrip _ hvals, ← hkeys]
    exact hsplit
  show s ∈ (allPossibleAssignments (getVariables e)).filter _
  rw [List.mem_filter]
  constructor
  · rw [mem_allPossible_iff _ (getVariables_nodup e) hne s]
    refine ⟨(s.map Prod.snd).map (fun w => w == Value.TRUE), ?_, hbits⟩
    rw [List.length_map, List.length_map, ← hkeys]
    unfold keysOf
    rw [List.length_map]
  · rw [hsat]; rfl

theorem bruteForce_empty_of_none (e : BooleanExpr) (sel : SelectNextVariable)
    (hlegal : LegalFor sel (getVariables e))
    (h : getSolution e [] sel = none) : bruteForceAllSolutions e = [] := by
  have h2 : dpllSolution e (getInitialAssignments e) sel = none := h
  have hfuel := dpllSolution_fuel e (getInitialAssignments e) sel hlegal
  rw [h2] at hfuel
  have hunsat := dpllFuel_unsat e sel hlegal _ _ hfuel
  show (allPossibleAssignments (getVariables e)).filter _ = []
  apply List.filter_eq_nil_iff.2
  intro t ht
  by_cases hne : getVariables e = []
  · have := hunsat t (by rw [hne]; intro v hv; simp at hv)
      (by rw [hne]; intro v hv; simp at hv)
    simpa using this
  · obtain ⟨bits, hlen, rfl⟩ :=
      (mem_allPossible_iff _ (getVariables_nodup e) hne t).1 ht
    have htot := total_on_zipAssign _ (getVariables_nodup e) bits hlen
    have := hunsat _ htot (fun v hv hcon =>
      absurd (by rw [lookup_getInitial, if_pos hv]) hcon)
    simpa using this

theorem bruteForce_nonempty_of_some (e : BooleanExpr) (sel : SelectNextVariable)
    (hlegal : LegalFor sel (getVariables e)) (s : VariableAssignments)
    (h : getSolution e [] sel = some s) : bruteForceAllSolutions e ≠ [] := by
  by_cases hne : getVariables e = []
  · obtain ⟨hsat, _, _⟩ := getSolution_some_analysis e sel hlegal s h
    have hcong : exprValue e [("undefined", Value.FALSE)] = exprValue e s :=
      exprValue_congr_vars e _ s (by rw [hne]; intro v hv; simp at hv)
    show (allPossibleAssignments (getVariables e)).filter _ ≠ []
    rw [hne]
    have hall : allPossibleAssignments ([] : List Variable) =
        [[("undefined", Value.FALSE)]] := by decide
    rw [hall]
    have hpred : (exprValue e [("undefined", Value.FALSE)] == Value.TRUE) = true := by
      rw [hcong, hsat]; rfl
    intro hcon
    have hmem : [("undefined", Value.FALSE)] ∈
        List.filter (fun assignment => exprValue e assignment == Value.TRUE)
          [[("undefined", Value.FALSE)]] :=
      List.mem_filter.2 ⟨by simp, hpred⟩
    rw [hcon] at hmem
    simp at hmem
  · have hmem := mem_bruteForce_of_solution e sel hlegal s hne h
    intro hcon
    rw [hcon] at hmem
    simp at hmem

/-- C10: for an expression with at least one variable whose names are all
non-empty, the default `getSolution` returns exactly the first element of
`bruteForceAllSolutions` (and `null` when that list is empty): the default
backtracking search visits complete assignments in brute-force order. -/
theorem getSolution_default_head (e : BooleanExpr) (hne : getVariables e ≠ [])
    (hnames : ∀ v ∈ getVariables e, v ≠ "") :
    getSolution e [] defaultSelect = (bruteForceAllSolutions e).head? := by
  show dpllSolution e (getInitialAssignments e) defaultSelect = _
  unfold dpllSolution
  rw [unsetCount_getInitial e]
  have hinit : getInitialAssignments e =
      (getVariables e).zip (([] : List Bool).map bitVal ++
        List.replicate (getVariables e).length Value.UNSET) := by
    rw [getInitialAssignments_eq, map_const_eq_zip]
    rfl
  rw [hinit, dpll_default_lex e hnames (getVariables e).length [] (by simp)]
  have hmap : (fun q => zipAssign (getVariables e) ([] ++ q)) =
      zipAssign (getVariables e) := by
    funext q
    rw [List.nil_append]
  rw [hmap, ← allPossibleAssignments_eq _ (getVariables_nodup e) hne,
    find?_eq_head?_filter]
  rfl

/-!  ### Claim theorems  -/

/-- C1 (counterexample): the empty total assignment over the empty
variable set satisfies `and()` yet is not in `bruteForceAllSolutions(and())`,
which instead returns a junk assignment binding the key `"undefined"`;
so the returned set differs from the set of satisfying total assignments. -/
theorem c1_counterexample :
    exprValue (and []) [] = Value.TRUE ∧
    ([] : VariableAssignments) ∉ bruteForceAllSolutions (and []) ∧
    bruteForceAllSolutions (and []) = [[("undefined", Value.FALSE)]] := by
  decide

/-- C1 (amended): for every expression with at least one extracted
variable, the set of assignments returned by `bruteForceAllSolutions`
equals the set of total assignments over the extracted variables (in
extraction order) on which the expression evaluates to `TRUE`. -/
theorem bruteForce_equals_satisfying_totals :
    ∀ e : BooleanExpr, getVariables e ≠ [] →
    ∀ a : VariableAssignments,
      a ∈ bruteForceAllSolutions e ↔
        ((∃ bits : List Bool, bits.length = (getVariables e).length ∧
          a = zipAssign (getVariables e) bits) ∧ exprValue e a = Value.TRUE) := by
  intro e hne a
  show a ∈ (allPossibleAssignments (getVariables e)).filter _ ↔ _
  rw [List.mem_filter, mem_allPossible_iff _ (getVariables_nodup e) hne a]
  constructor
  · rintro ⟨hmem, hpred⟩
    exact ⟨hmem, by simpa using hpred⟩
  · rintro ⟨hmem, hsat⟩
    exact ⟨hmem, by simp [hsat]⟩

/-- C1 (witness): the amended equivalence evaluated at `or('a','b')` and
the assignment `{a: false, b: true}`. -/
theorem c1_witness :
    [("a", Value.FALSE), ("b", Value.TRUE)] ∈
      bruteForceAllSolutions (or [Sum.inl "a", Sum.inl "b"]) ↔
    ((∃ bits : List Bool,
        bits.length = (getVariables (or [Sum.inl "a", Sum.inl "b"])).length ∧
        [("a", Value.FALSE), ("b", Value.TRUE)] =
          zipAssign (getVariables (or [Sum.inl "a", Sum.inl "b"])) bits) ∧
      exprValue (or [Sum.inl "a", Sum.inl "b"])
        [("a", Value.FALSE), ("b", Value.TRUE)] = Value.TRUE) :=
  bruteForce_equals_satisfying_totals (or [Sum.inl "a", Sum.inl "b"])
    (by decide) [("a", Value.FALSE), ("b", Value.TRUE)]

/-- C2 (counterexample): `getSolution(and())` returns the empty
assignment, `bruteForceAllSolutions(and())` is non-empty, and yet the
returned assignment is not a member of that list (whose only element
binds the junk key `"undefined"`), falsifying the claimed membership. -/
theorem c2_counterexample :
    getSolution (and []) [] defaultSelect = some [] ∧
    bruteForceAllSolutions (and []) ≠ [] ∧
    ([] : VariableAssignments) ∉ bruteForceAllSolutions (and []) := by
  decide

/-- C2 (amended): for every expression and every strategy legal on its
variable list, `getSolution` returns `null` iff `bruteForceAllSolutions`
is empty; when the expression has at least one variable, a non-null
result is a member of `bruteForceAllSolutions`; and the default strategy
is legal whenever no variable name is the empty string. -/
theorem getSolution_consistent_with_bruteForce :
    (∀ (e : BooleanExpr) (sel : SelectNextVariable),
      LegalFor sel (getVariables e) →
      ((getSolution e [] sel = none ↔ bruteForceAllSolutions e = []) ∧
        ∀ s, getSolution e [] sel = some s → getVariables e ≠ [] →
          s ∈ bruteForceAllSolutions e)) ∧
    (∀ vars : List Variable, (∀ v ∈ vars, v ≠ "") →
      LegalFor defaultSelect vars) := by
  constructor
  · intro e sel hlegal
    constructor
    · constructor
      · exact bruteForce_empty_of_none e sel hlegal
      · intro hempty
        cases hsol : getSolution e [] sel with
        | none => rfl
        | some s =>
            exact absurd hempty (bruteForce_nonempty_of_some e sel hlegal s hsol)
    · intro s hs hne
      exact mem_bruteForce_of_solution e sel hlegal s hne hs
  · exact defaultSelect_legal

/-- C2 (witness): the amended consistency evaluated at `or('a')` with
the default strategy, whose legality on `["a"]` follows from the
theorem itself. -/
theorem c2_witness :
    (getSolution (or [Sum.inl "a"]) [] defaultSelect = none ↔
      bruteForceAllSolutions (or [Sum.inl "a"]) = []) ∧
    (∀ s, getSolution (or [Sum.inl "a"]) [] defaultSelect = some s →
      getVariables (or [Sum.inl "a"]) ≠ [] →
      s ∈ bruteForceAllSolutions (or [Sum.inl "a"])) :=
  getSolution_consistent_with_bruteForce.1 (or [Sum.inl "a"]) defaultSelect
    (getSolution_consistent_with_bruteForce.2 (getVariables (or [Sum.inl "a"]))
      (by decide))

/-- C3 (counterexample): with the single variable named `""` (the empty
string) still Unset, `defaultSelect` returns `null`, because the JS
truthiness test `unassignedVar ? ... : null` treats the empty string as
falsy; so `defaultSelect` does not return `null` only when no variable
is Unset. -/
theorem c3_counterexample :
    defaultSelect [""] [("", Value.UNSET)] = none ∧
    lookup [("", Value.UNSET)] "" = some Value.UNSET := by
  decide

/-- C3 (amended): provided every variable name is non-empty,
`defaultSelect` returns `null` iff no listed variable is Unset, and
otherwise returns the first Unset variable in list order paired with
`false` (try false first). -/
theorem defaultSelect_first_unset :
    ∀ (vars : List Variable) (a : VariableAssignments),
    (∀ v ∈ vars, v ≠ "") →
    ((defaultSelect vars a = none ↔
        ∀ v ∈ vars, lookup a v ≠ some Value.UNSET) ∧
      ∀ v b, defaultSelect vars a = some (v, b) →
        b = false ∧ lookup a v = some Value.UNSET ∧
        ∃ pre post, vars = pre ++ v :: post ∧
          ∀ u ∈ pre, lookup a u ≠ some Value.UNSET) := by
  intro vars a hnames
  constructor
  · constructor
    · intro hnone v hv
      exact ((defaultSelect_legal vars hnames) a).1 hnone v hv
    · intro hall
      unfold defaultSelect
      have hfind : vars.find? (fun v => lookup a v == some .UNSET) = none := by
        apply List.find?_eq_none.2
        intro v hv
        simp [hall v hv]
      rw [hfind]
  · intro v b hsome
    obtain ⟨hv, hunset⟩ := ((defaultSelect_legal vars hnames) a).2 v b hsome
    unfold defaultSelect at hsome
    cases hfind : vars.find? (fun u => lookup a u == some .UNSET) with
    | none => rw [hfind] at hsome; exact Option.noConfusion hsome
    | some w =>
        rw [hfind] at hsome
        dsimp only at hsome
        by_cases hw : (w == "") = true
        · rw [if_pos hw] at hsome; exact Option.noConfusion hsome
        · rw [if_neg hw] at hsome
          have hinj := Option.some.inj hsome
          have hwv : w = v := congrArg Prod.fst hinj
          have hbf : b = false := (congrArg Prod.snd hinj).symm
          subst hwv
          obtain ⟨pre, post, heq, hpre⟩ := find?_split vars _ w hfind
          refine ⟨hbf, hunset, pre, post, heq, ?_⟩
          intro u hu
          simpa using hpre u hu

/-- C3 (witness): the amended contract evaluated at the variable list
`["a"]` with `a` Unset. -/
theorem c3_witness :
    ((defaultSelect ["a"] [("a", Value.UNSET)] = none ↔
        ∀ v ∈ ["a"], lookup [("a", Value.UNSET)] v ≠ some Value.UNSET) ∧
      ∀ v b, defaultSelect ["a"] [("a", Value.UNSET)] = some (v, b) →
        b = false ∧ lookup [("a", Value.UNSET)] v = some Value.UNSET ∧
        ∃ pre post, ["a"] = pre ++ v :: post ∧
          ∀ u ∈ pre, lookup [("a", Value.UNSET)] u ≠ some Value.UNSET) :=
  defaultSelect_first_unset ["a"] [("a", Value.UNSET)] (by decide)

/-- C4 (counterexample): for the zero-variable expression `and()`, the
code returns the junk assignment binding `"undefined"`, whereas the
claimed enumeration (bind `variables[i]` per the MSB-first zero-padded
bits of `k`) yields the single empty assignment. -/
theorem c4_counterexample :
    bruteForceAllSolutions (and []) = [[("undefined", Value.FALSE)]] ∧
    ((List.range (2 ^ (getVariables (and [])).length)).map
      (fun k => zipAssign (getVariables (and []))
        (specBits (getVariables (and [])).length k))).filter
      (fun a => exprValue (and []) a == Value.TRUE) = [[]] ∧
    ([[("undefined", Value.FALSE)]] : List VariableAssignments) ≠ [[]] := by
  decide

/-- C4 (amended): for every expression with at least one variable,
`bruteForceAllSolutions` enumerates `k = 0 .. 2^n - 1` in increasing
order, binds `variables[i]` to bit `i` of `k`'s MSB-first `n`-bit
zero-padded representation, and keeps satisfying assignments in that
order; in particular `bruteForceAllSolutions(or('a','b'))` is exactly
the claimed three-element list. -/
theorem bruteForce_enumeration_order :
    (∀ e : BooleanExpr, getVariables e ≠ [] →
      bruteForceAllSolutions e =
        ((List.range (2 ^ (getVariables e).length)).map
          (fun k => zipAssign (getVariables e)
            (specBits (getVariables e).length k))).filter
          (fun a => exprValue e a == Value.TRUE)) ∧
    bruteForceAllSolutions (or [Sum.inl "a", Sum.inl "b"]) =
      [[("a", Value.FALSE), ("b", Value.TRUE)],
       [("a", Value.TRUE), ("b", Value.FALSE)],
       [("a", Value.TRUE), ("b", Value.TRUE)]] := by
  constructor
  · intro e hne
    show (allPossibleAssignments (getVariables e)).filter _ = _
    rw [allPossibleAssignments_eq _ (getVariables_nodup e) hne,
      ← range_map_specBits, List.map_map]
    rfl
  · decide

/-- C4 (witness): the amended enumeration evaluated at `or('a','b')`. -/
theorem c4_witness :
    bruteForceAllSolutions (or [Sum.inl "a", Sum.inl "b"]) =
      ((List.range (2 ^ (getVariables (or [Sum.inl "a", Sum.inl "b"])).length)).map
        (fun k => zipAssign (getVariables (or [Sum.inl "a", Sum.inl "b"]))
          (specBits (getVariables (or [Sum.inl "a", Sum.inl "b"])).length k))).filter
        (fun a => exprValue (or [Sum.inl "a", Sum.inl "b"]) a == Value.TRUE) :=
  bruteForce_enumeration_order.1 (or [Sum.inl "a", Sum.inl "b"]) (by decide)

/-- C5: `implies(a,b)` builds exactly `or(not(a), b)`, `xor(a,b)` builds
exactly `or(and(a, not(b)), and(not(a), b))`, and under every complete
assignment `xor(a,b)` evaluates to `TRUE` iff exactly one of `a`, `b`
evaluates to `TRUE`. -/
theorem derived_constructors_laws :
    ∀ a b : Variable ⊕ BooleanExpr,
    (implies a b = or [Sum.inr (not a), b] ∧
      xor a b = or [Sum.inr (and [a, Sum.inr (not b)]),
        Sum.inr (and [Sum.inr (not a), b])]) ∧
    ∀ m : VariableAssignments,
      (∀ v ∈ getVariables (xor a b),
        lookup m v = some Value.TRUE ∨ lookup m v = some Value.FALSE) →
      (exprValue (xor a b) m = Value.TRUE ↔
        ((operandValue a m = some Value.TRUE ∧
            ¬ operandValue b m = some Value.TRUE) ∨
          (¬ operandValue a m = some Value.TRUE ∧
            operandValue b m = some Value.TRUE))) := by
  intro a b
  refine ⟨⟨rfl, rfl⟩, ?_⟩
  intro m hcomp
  have hmemA : ∀ v ∈ occurOperand a, v ∈ getVariables (xor a b) := by
    intro v hv
    rw [mem_getVariables_iff, occur_xor]
    simp [hv]
  have hmemB : ∀ v ∈ occurOperand b, v ∈ getVariables (xor a b) := by
    intro v hv
    rw [mem_getVariables_iff, occur_xor]
    simp [hv]
  have hA := operand_total a m (fun v hv => hcomp v (hmemA v hv))
  have hB := operand_total b m (fun v hv => hcomp v (hmemB v hv))
  rcases hA with hA | hA <;> rcases hB with hB | hB <;>
    simp [xor, or, and, not, exprValue, orAny, andAll, operandValue, hA, hB]

/-- C5 (witness): the exclusive-or law evaluated at variables `x`, `y`
under the complete assignment `{x: true, y: false}`. -/
theorem c5_witness :
    exprValue (xor (Sum.inl "x") (Sum.inl "y"))
        [("x", Value.TRUE), ("y", Value.FALSE)] = Value.TRUE ↔
      ((operandValue (Sum.inl "x") [("x", Value.TRUE), ("y", Value.FALSE)] =
            some Value.TRUE ∧
          ¬ operandValue (Sum.inl "y") [("x", Value.TRUE), ("y", Value.FALSE)] =
            some Value.TRUE) ∨
        (¬ operandValue (Sum.inl "x") [("x", Value.TRUE), ("y", Value.FALSE)] =
            some Value.TRUE ∧
          operandValue (Sum.inl "y") [("x", Value.TRUE), ("y", Value.FALSE)] =
            some Value.TRUE)) :=
  (derived_constructors_laws (Sum.inl "x") (Sum.inl "y")).2
    [("x", Value.TRUE), ("y", Value.FALSE)] (by decide)

/-- C6: for every expression, every well-formed seed binding some of the
expression's variables to TRUE or FALSE, and every legal strategy: a
non-null `getSolution` result agrees with the seed on every seeded
variable; every variable absent from the seed is Unset in the merged
assignment the search starts from (the one handed to the strategy's
first call); and `getSolution` is exactly the search from that merged
assignment. -/
theorem seeds_preserved :
    ∀ (e : BooleanExpr) (seed : VariableAssignments) (sel : SelectNextVariable),
    LegalFor sel (getVariables e) → (keysOf seed).Nodup →
    (∀ p ∈ seed, p.1 ∈ getVariables e ∧
      (p.2 = Value.TRUE ∨ p.2 = Value.FALSE)) →
    ((∀ s, getSolution e seed sel = some s →
        ∀ v ∈ keysOf seed, lookup s v = lookup seed v) ∧
      (∀ v ∈ getVariables e, v ∉ keysOf seed →
        lookup (objAssign (getInitialAssignments e) seed) v = some Value.UNSET) ∧
      getSolution e seed sel =
        dpllSolution e (objAssign (getInitialAssignments e) seed) sel) := by
  intro e seed sel hlegal hnd hseed
  refine ⟨?_, ?_, rfl⟩
  · intro s hs v hv
    have hmerged : lookup (objAssign (getInitialAssignments e) seed) v =
        lookup seed v := lookup_objAssign_mem seed _ hnd v hv
    have hlookseed : ∃ w, lookup seed v = some w ∧ w ≠ Value.UNSET := by
      rcases Option.isSome_iff_exists.1 (lookup_isSome_of_mem seed v hv)
        with ⟨w, hw⟩
      refine ⟨w, hw, ?_⟩
      unfold lookup at hw
      cases hfind : seed.find? (fun p => p.1 == v) with
      | none => rw [hfind] at hw; exact Option.noConfusion hw
      | some p =>
          rw [hfind] at hw
          have hp : p ∈ seed := List.mem_of_find?_eq_some hfind
          have hpw : p.2 = w := Option.some.inj hw
          rcases (hseed p hp).2 with h2 | h2 <;> rw [← hpw, h2] <;>
            intro hcon <;> exact Value.noConfusion hcon
    obtain ⟨w, hw, hwne⟩ := hlookseed
    have hs2 : dpllSolution e (objAssign (getInitialAssignments e) seed) sel =
        some s := hs
    have hfuel :=
      dpllSolution_fuel e (objAssign (getInitialAssignments e) seed) sel hlegal
    rw [hs2] at hfuel
    obtain ⟨hpres, _, _, _⟩ := dpllFuel_sat e sel hlegal _ _ _ hfuel
    have hne : lookup (objAssign (getInitialAssignments e) seed) v ≠
        some Value.UNSET := by
      rw [hmerged, hw]
      intro hcon
      exact hwne (Option.some.inj hcon)
    rw [hpres v hne, hmerged]
  · intro v hv hvnot
    rw [lookup_objAssign_not_mem seed _ v hvnot, lookup_getInitial, if_pos hv]

/-- C6 (witness): seed preservation evaluated at `and('a','b')` with the
seed `{a: true}` and the default strategy. -/
theorem c6_witness :
    ((∀ s, getSolution (and [Sum.inl "a", Sum.inl "b"])
          [("a", Value.TRUE)] defaultSelect = some s →
        ∀ v ∈ keysOf [("a", Value.TRUE)],
          lookup s v = lookup [("a", Value.TRUE)] v) ∧
      (∀ v ∈ getVariables (and [Sum.inl "a", Sum.inl "b"]),
        v ∉ keysOf [("a", Value.TRUE)] →
        lookup (objAssign (getInitialAssignments (and [Sum.inl "a", Sum.inl "b"]))
          [("a", Value.TRUE)]) v = some Value.UNSET) ∧
      getSolution (and [Sum.inl "a", Sum.inl "b"])
          [("a", Value.TRUE)] defaultSelect =
        dpllSolution (and [Sum.inl "a", Sum.inl "b"])
          (objAssign (getInitialAssignments (and [Sum.inl "a", Sum.inl "b"]))
            [("a", Value.TRUE)]) defaultSelect) :=
  seeds_preserved (and [Sum.inl "a", Sum.inl "b"]) [("a", Value.TRUE)]
    defaultSelect (defaultSelect_legal _ (by decide)) (by decide) (by decide)

/-- C7 (counterexample): the claim says the recursion depth equals the
number of distinct variables for every seed; but on `and('a')` seeded
with `{a: true}` the search already completes within a single call
(fuel 1, i.e. recursion depth 0), while the number of distinct
variables is 1. -/
theorem c7_counterexample :
    (dpllFuel defaultSelect (and [Sum.inl "a"]) 1
      (objAssign (getInitialAssignments (and [Sum.inl "a"]))
        [("a", Value.TRUE)])).isSome = true ∧
    (getVariables (and [Sum.inl "a"])).length = 1 := by
  decide

/-- C7 (amended): under a legal strategy the backtracking search
terminates for every expression and seed — the fueled model succeeds
exactly when the fuel exceeds the number of variables left Unset after
seeding (so the recursion depth equals that number), and with an empty
seed that number is the number of distinct variables. -/
theorem dpll_terminates_with_depth :
    ∀ (e : BooleanExpr) (init : VariableAssignments) (sel : SelectNextVariable),
    LegalFor sel (getVariables e) →
    ((∀ f : Nat,
        ((dpllFuel sel e f (objAssign (getInitialAssignments e) init)).isSome
          = true) ↔
        unsetCount (getVariables e)
          (objAssign (getInitialAssignments e) init) < f) ∧
      unsetCount (getVariables e) (objAssign (getInitialAssignments e) []) =
        (getVariables e).length) := by
  intro e init sel hlegal
  refine ⟨fun f => dpllFuel_isSome_iff e sel hlegal f _, ?_⟩
  show unsetCount (getVariables e) (getInitialAssignments e) = _
  exact unsetCount_getInitial e

/-- C7 (witness): the termination threshold evaluated at `and('a')`
with an empty seed and the default strategy. -/
theorem c7_witness :
    ((∀ f : Nat,
        ((dpllFuel defaultSelect (and [Sum.inl "a"]) f
          (objAssign (getInitialAssignments (and [Sum.inl "a"])) [])).isSome
          = true) ↔
        unsetCount (getVariables (and [Sum.inl "a"]))
          (objAssign (getInitialAssignments (and [Sum.inl "a"])) []) < f) ∧
      unsetCount (getVariables (and [Sum.inl "a"]))
          (objAssign (getInitialAssignments (and [Sum.inl "a"])) []) =
        (getVariables (and [Sum.inl "a"])).length) :=
  dpll_terminates_with_depth (and [Sum.inl "a"]) [] defaultSelect
    (defaultSelect_legal _ (by decide))

/-- C8: `getVariables` returns exactly the first-occurrence
deduplication of the pre-order, left-to-right occurrence list of the
expression: it equals folding `Set.add` over that occurrence list, is
duplicate-free, and contains precisely the occurring variables (being a
function of the expression, it is deterministic). -/
theorem extractVariables_first_occurrence :
    ∀ e : BooleanExpr,
    getVariables e = (occurList e).foldl addVar [] ∧
    (getVariables e).Nodup ∧
    ∀ v : Variable, v ∈ getVariables e ↔ v ∈ occurList e := by
  intro e
  exact ⟨getVariables_eq_foldl e, getVariables_nodup e,
    fun v => mem_getVariables_iff e v⟩

/-- C9 (code bug): on zero-variable expressions the enumerator does not
produce the empty assignment: `bruteForceAllSolutions(and())` is a
one-element list whose element binds the junk key `"undefined"` (from
`variables[0]` being JS `undefined` inside `Object.fromEntries`) to
`FALSE`, instead of the claimed empty assignment; `or()` correctly
yields the empty list. -/
theorem c9_zero_variable_enumeration :
    bruteForceAllSolutions (and []) = [[("undefined", Value.FALSE)]] ∧
    bruteForceAllSolutions (or []) = [] := by
  decide

/-- C10 (witness): the default search evaluated at `or('a','b')` indeed
returns the first brute-force solution. -/
theorem c10_witness :
    getSolution (or [Sum.inl "a", Sum.inl "b"]) [] defaultSelect =
      (bruteForceAllSolutions (or [Sum.inl "a", Sum.inl "b"])).head? :=
  getSolution_default_head (or [Sum.inl "a", Sum.inl "b"]) (by decide)
    (by decide)

end SAT
